import Mathlib

set_option maxHeartbeats 1000000
set_option linter.unusedSectionVars false

/-!
Verification of the `boxes` engine (src/index.js, src/classes.js).

The development shallowly embeds the parts of the program the claims are
about:

* `JMap` — JS `Map` objects as insertion-ordered association lists
  (`Map.set` updates an existing entry in place and appends a fresh key;
  `Map.delete` removes the entry; keys are unique in every map the program
  builds).
* `BoxStore` — the per-entity property store of `class Box`
  (`set_property`, `get_property`, `subscribe`, `unsubscribe`,
  index.js lines 553-617).  A property slot whose `value` field is the JS
  `null`/`undefined` is modelled as `none`.
* `St`, `resolve`, `update`, `recalculate_containment` — the containment
  resolver and delta propagator (index.js lines 697-776).
* `relation_listener` and friends — the relation-subscription combinator
  `subscribe_relation` (classes.js lines 19-68), as an explicit transition
  system over its closure state, with the hook / subscribe / callback
  effects reified as a `CombEv` trace.
* `units_run` and friends — the `subscribers.units` rule composed with the
  `subscribers.unit_max` listener (classes.js lines 214-222, 111-122).

All definitions are executable; the witnesses evaluate them on concrete
registries.
-/

namespace Boxes

/-- JS `Map` modelled as an insertion-ordered association list. -/
abbrev JMap (α β : Type) : Type := List (α × β)

/-- `Map.get`: the value stored at `k`, `none` playing `undefined`. -/
def jget [DecidableEq α] {β : Type} : JMap α β → α → Option β
  | [], _ => none
  | e :: rest, k => if k = e.1 then some e.2 else jget rest k

/-- `Map.set`: update in place when `k` is present, append otherwise. -/
def jset [DecidableEq α] {β : Type} : JMap α β → α → β → JMap α β
  | [], k, v => [(k, v)]
  | e :: rest, k, v => if k = e.1 then (k, v) :: rest else e :: jset rest k v

/-- `Map.delete`: drop the entry stored at `k` (a no-op when absent). -/
def jdel [DecidableEq α] {β : Type} : JMap α β → α → JMap α β
  | [], _ => []
  | e :: rest, k => if k = e.1 then rest else e :: jdel rest k

/-- Key list of a map, in insertion order. -/
def keys {α β : Type} (m : JMap α β) : List α := m.map Prod.fst

/-- Executable duplicate-freedom check for key lists. -/
def nodupB [DecidableEq α] : List α → Bool
  | [] => true
  | x :: xs => (decide (x ∉ xs)) && nodupB xs

/-! ## The entity/property store (`class Box`, index.js lines 523-635)

A property slot is `{value, listeners}`; `value = none` models a slot that
is JS `null` or `undefined` (`subscribe` creates slots without a `value`
field, and the store compares with `== null`, which identifies the two).
`V` is the type of non-null property values, `L` the type of listener
callbacks (opaque to the store).  Listener invocation is returned as the
list of fired labels. -/

structure PropSlot (V L : Type) where
  value : Option V
  listeners : JMap String L
deriving DecidableEq

structure BoxStore (V L : Type) where
  properties : JMap String (PropSlot V L)
deriving DecidableEq

/-- Outcome of a JS call that may throw. -/
inductive JsResult (R : Type) where
  | ok (r : R)
  | thrown (msg : String)
deriving DecidableEq

variable {V L : Type}

/-- `Box.set_property` (index.js lines 560-572): materialize the slot if
absent, run the initializer if the value compares `== null`, apply the
mutation, then fire every listener.  The mutation receives and replaces
the `value` field (the source callbacks only ever touch `property.value`).
Returns the new store and the labels fired, in subscription order. -/
def set_property (b : BoxStore V L) (prop : String) (initializer : Unit → Option V)
    (updatef : Option V → Option V) : BoxStore V L × List String :=
  let props :=
    if (jget b.properties prop).isNone then jset b.properties prop ⟨none, []⟩
    else b.properties
  let slot := (jget props prop).getD ⟨none, []⟩
  let slot1 : PropSlot V L :=
    if slot.value.isNone then { slot with value := initializer () } else slot
  let slot2 : PropSlot V L := { slot1 with value := updatef slot1.value }
  (⟨jset props prop slot2⟩, keys slot2.listeners)

/-- `Box.get_property` (index.js lines 580-588): materialize the slot if
absent, then return the stored value; when the value compares `== null`,
return the result of the fallback instead — without storing it — or throw
when no fallback was supplied. -/
def get_property (b : BoxStore V L) (prop : String)
    (default_value : Option (Unit → Option V)) :
    BoxStore V L × JsResult (Option V) :=
  let props :=
    if (jget b.properties prop).isNone then jset b.properties prop ⟨none, []⟩
    else b.properties
  let slot := (jget props prop).getD ⟨none, []⟩
  match slot.value with
  | some v => (⟨props⟩, .ok (some v))
  | none =>
    match default_value with
    | some f => (⟨props⟩, .ok (f ()))
    | none => (⟨props⟩, .thrown ("Tried to access uninitialized property: " ++ prop))

/-- `Box.subscribe` (index.js lines 597-603): materialize the slot if
absent, then store the callback under the label, overwriting a previous
callback with the same label. -/
def subscribe (b : BoxStore V L) (prop label : String) (callback : L) :
    BoxStore V L :=
  let props :=
    if (jget b.properties prop).isNone then jset b.properties prop ⟨none, []⟩
    else b.properties
  let slot := (jget props prop).getD ⟨none, []⟩
  ⟨jset props prop { slot with listeners := jset slot.listeners label callback }⟩

/-- `Box.unsubscribe` (index.js lines 610-617).  When the slot exists the
label is deleted from its listener map.  When it does not, the source
executes `this.properties.set(prop, { value, listeners: new Map() })`:
there is no binding named `value` in scope, so under `"use strict"` the
shorthand property evaluates an unbound identifier and the call throws a
`ReferenceError`. -/
def unsubscribe (b : BoxStore V L) (prop label : String) :
    JsResult (BoxStore V L) :=
  match jget b.properties prop with
  | some slot =>
    .ok ⟨jset b.properties prop { slot with listeners := jdel slot.listeners label }⟩
  | none => .thrown ("ReferenceError: value is not defined")

/-- The stored (non-null) value of a property, `none` when the slot is
absent or holds JS `null`/`undefined`. -/
def propValue (b : BoxStore V L) (prop : String) : Option V :=
  (jget b.properties prop).bind PropSlot.value

/-! ## Geometry, containment resolver and delta propagator
(index.js lines 697-776)

Relation values are always `Map`s (their initializer is
`() => new Map()`), so the `parents`/`children` properties are embedded
directly as `JMap String Int` fields; an unwritten slot reads as the empty
map through that initializer.  The listeners of the relation properties
are reified as a `RelEvent` trace: one event per relation `set_property`
call, carrying the delta map handed to the listeners.  No listener in the
program writes a relation property — the only writer is
`recalculate_containment` itself — so relation state needs no reentrant
listener semantics. -/

/-- An axis-aligned rectangle `{left_top, right_bottom}` — the
`dimensions` of one `SvgBox`.  Coordinates are embedded as integers. -/
structure Dim where
  left_top : Int × Int
  right_bottom : Int × Int
deriving DecidableEq

/-- The two relation properties. -/
inductive Rel where
  | parents
  | children
deriving DecidableEq

/-- `parents` mirrors `children` and vice versa — the `relative_field` of
the source. -/
def Rel.other : Rel → Rel
  | .parents => .children
  | .children => .parents

/-- One registry entry: the regions (`svgs`) and the two relation maps of
a box. -/
structure BoxSt where
  svgs : List Dim
  parents : JMap String Int
  children : JMap String Int
deriving DecidableEq

def BoxSt.rel (b : BoxSt) : Rel → JMap String Int
  | .parents => b.parents
  | .children => b.children

def BoxSt.setRel (b : BoxSt) : Rel → JMap String Int → BoxSt
  | .parents, m => { b with parents := m }
  | .children, m => { b with children := m }

/-- The registry `boxes`. -/
structure St where
  boxes : JMap String BoxSt
deriving DecidableEq

/-- `is_parent` (index.js lines 714-717): the candidate region strictly
contains the changed-box region on both axes; touching edges do not
count. -/
def is_parent (dim p : Dim) : Bool :=
  decide (p.left_top.1 < dim.left_top.1) && decide (p.left_top.2 < dim.left_top.2) &&
  decide (p.right_bottom.1 > dim.right_bottom.1) &&
  decide (p.right_bottom.2 > dim.right_bottom.2)

/-- `is_child` (index.js lines 719-722). -/
def is_child (dim c : Dim) : Bool :=
  decide (c.left_top.1 > dim.left_top.1) && decide (c.left_top.2 > dim.left_top.2) &&
  decide (c.right_bottom.1 < dim.right_bottom.1) &&
  decide (c.right_bottom.2 < dim.right_bottom.2)

/-- The `parent_count` accumulation of index.js lines 711-731: over the
cross product of origin regions and candidate regions, how many candidate
regions strictly contain an origin region. -/
def parent_count (box cand : BoxSt) : Int :=
  box.svgs.foldl (fun acc d =>
    cand.svgs.foldl (fun a cd => if is_parent d cd then a + 1 else a) acc) 0

/-- The `child_count` accumulation of the same loop. -/
def child_count (box cand : BoxSt) : Int :=
  box.svgs.foldl (fun acc d =>
    cand.svgs.foldl (fun a cd => if is_child d cd then a + 1 else a) acc) 0

/-- The resolver loop of `recalculate_containment` (index.js lines
706-738): walk every other registry entry, recompute both counts against
the cloned `original_parents`/`original_children`, and record exactly the
candidates whose count changed. -/
def resolve (box : BoxSt) (id : String) :
    List (String × BoxSt) → JMap String Int × JMap String Int
  | [] => ([], [])
  | (cid, cand) :: rest =>
    let acc := resolve box id rest
    if cid = id then acc
    else
      let pc := parent_count box cand
      let cc := child_count box cand
      ((if (jget box.parents cid).getD 0 ≠ pc then (cid, pc) :: acc.1 else acc.1),
       (if (jget box.children cid).getD 0 ≠ cc then (cid, cc) :: acc.2 else acc.2))

/-- One relation `set_property` call as seen by its listeners: the box it
fired on, the relation property, and the delta map passed to them. -/
structure RelEvent where
  target : String
  field : Rel
  delta : JMap String Int
deriving DecidableEq

/-- Apply `f` to the registry entry stored under `id`.  Every call site
passes an id that is present; an absent id leaves the registry
unchanged. -/
def modifyBox (s : St) (id : String) (f : BoxSt → BoxSt) : St :=
  ⟨s.boxes.map (fun e => if e.1 = id then (e.1, f e.2) else e)⟩

/-- The loop body of `update` (index.js lines 753-771): for each changed
relative, write or delete the new count in the origin map and in the
mirrored map of the relative; the mirrored write is a `set_property`
carrying a single-entry delta map.  In the `new_count == 0` branch the
source delta is `0 - original.get(relative_id)` with no `?? 0`; the entry
is present there whenever the resolver emitted the change (see
`resolve_zero_has_original`), so the embedding renders it as `getD 0`. -/
def update_loop (id : String) (original : JMap String Int) (field : Rel) :
    List (String × Int) → St → St × List RelEvent
  | [], s => (s, [])
  | (rid, nc) :: rest, s =>
    let rf := field.other
    let s1 :=
      if nc = 0 then
        modifyBox (modifyBox s id (fun b => b.setRel field (jdel (b.rel field) rid)))
          rid (fun b => b.setRel rf (jdel (b.rel rf) id))
      else
        modifyBox (modifyBox s id (fun b => b.setRel field (jset (b.rel field) rid nc)))
          rid (fun b => b.setRel rf (jset (b.rel rf) id nc))
    let ev : RelEvent := ⟨rid, rf, [(id, nc - (jget original rid).getD 0)]⟩
    let rec2 := update_loop id original field rest s1
    (rec2.1, ev :: rec2.2)

/-- `update` (index.js lines 742-773): an empty changed map returns before
any write or listener call; otherwise run the loop and finally notify the
relation listeners of the origin itself once, with the full delta map. -/
def update (s : St) (id : String) (original updated : JMap String Int)
    (field : Rel) : St × List RelEvent :=
  if updated.isEmpty then (s, [])
  else
    let delta := updated.map (fun e => (e.1, e.2 - (jget original e.1).getD 0))
    let r := update_loop id original field updated s
    (r.1, r.2 ++ [⟨id, field, delta⟩])

/-- `recalculate_containment` (index.js lines 701-776).  Returns `none`
when the id is not registered (the source would fault on `undefined`),
otherwise the new registry and the trace of relation listener
notifications. -/
def recalculate_containment (s : St) (id : String) :
    Option (St × List RelEvent) :=
  match jget s.boxes id with
  | none => none
  | some box =>
    let r := resolve box id s.boxes
    let u1 := update s id box.parents r.1 .parents
    let u2 := update u1.1 id box.children r.2 .children
    some (u2.1, u1.2 ++ u2.2)

/-- Key uniqueness of the registry and of every relation map — true of
every `Map` the program builds. -/
def wfSt (s : St) : Bool :=
  nodupB (keys s.boxes) &&
  s.boxes.all (fun e => nodupB (keys e.2.parents) && nodupB (keys e.2.children))

/-- The relation entry stored for `b` in the `f` map of box `a`. -/
def relAt (s : St) (f : Rel) (a b : String) : Option Int :=
  match jget s.boxes a with
  | none => none
  | some bx => jget (bx.rel f) b

/-- The symmetry invariant (spec §3 and §8): every stored relation entry
has a nonzero count, refers to a registered box, and is mirrored there
with the same count — so `A.children.get(B) == B.parents.get(A)`, both
sides absent when the count is zero. -/
def symOK (s : St) : Bool :=
  s.boxes.all (fun e =>
    (e.2.children.all fun c =>
      decide (c.2 ≠ 0) &&
      (match jget s.boxes c.1 with
       | none => false
       | some bb => decide (jget bb.parents e.1 = some c.2))) &&
    (e.2.parents.all fun c =>
      decide (c.2 ≠ 0) &&
      (match jget s.boxes c.1 with
       | none => false
       | some bb => decide (jget bb.children e.1 = some c.2))))

/-! ## The relation-subscription combinator `subscribe_relation`
(classes.js lines 19-68)

The combinator closure state is the `state` map of saved `filter_map`
results together with the set of relatives currently carrying the
tracked-property subscription installed under `label + box.id`.  The
`filter_map` projection is abstracted as a function `String → Option V`
of the relative id at the current world (`none` plays the filtered /
`null` result).  Hook invocations, tracked-property subscriptions and
aggregate-callback invocations are reified as `CombEv` events. -/

structure CombState (V : Type) where
  state : JMap String V
  tracked : List String
deriving DecidableEq

inductive CombEv (V : Type) where
  | enterHook (rid : String)
  | exitHook (rid : String)
  | subscribed (rid : String)
  | unsubscribed (rid : String)
  | callbackFired (st : JMap String V)
deriving DecidableEq

/-- Erase one occurrence from an id list (`Map.delete` on the listener
map, restricted to the one label this combinator owns). -/
def lerase : List String → String → List String
  | [], _ => []
  | x :: xs, k => if k = x then xs else x :: lerase xs k

/-- The `property_callback` closure of `on_add` (classes.js lines 22-31):
recompute the projection, save it when non-null and drop the entry when
null, then invoke the aggregate callback with the state map. -/
def property_callback {V : Type} (proj : String → Option V) (cs : CombState V)
    (rid : String) : CombState V × List (CombEv V) :=
  match proj rid with
  | some v =>
    let st := jset cs.state rid v
    ({ cs with state := st }, [CombEv.callbackFired st])
  | none =>
    let st := jdel cs.state rid
    ({ cs with state := st }, [CombEv.callbackFired st])

/-- `on_add` (classes.js lines 21-38): when a tracked property is
configured, subscribe `property_callback` on the relative (last-write-wins
under the derived label, hence idempotent for membership); then run the
callback once to seed the state. -/
def on_add {V : Type} (hasProp : Bool) (proj : String → Option V)
    (cs : CombState V) (rid : String) : CombState V × List (CombEv V) :=
  let t :=
    if hasProp then
      ({ cs with tracked := if rid ∈ cs.tracked then cs.tracked else cs.tracked ++ [rid] },
       [CombEv.subscribed rid])
    else (cs, ([] : List (CombEv V)))
  let r := property_callback proj t.1 rid
  (r.1, t.2 ++ r.2)

/-- One iteration of the relation listener of `subscribe_relation`
(classes.js lines 40-63).  `relmap` is the relation map read back from the
box after the propagator write, `count` the delta value reported for
`rid`.  A missing entry is an exit: exit hook, drop the saved state,
detach the tracked-property subscription, fire the aggregate callback.
An entry equal to the reported value is a fresh enter (the stored count
equals the reported delta exactly when the previous count was zero):
enter hook, then `on_add`.  Anything else does nothing. -/
def relation_listener_step {V : Type} (hasProp hasHooks : Bool)
    (proj : String → Option V) (relmap : JMap String Int) (cs : CombState V)
    (rid : String) (count : Int) : CombState V × List (CombEv V) :=
  match jget relmap rid with
  | none =>
    let e1 := if hasHooks then [CombEv.exitHook rid] else []
    let cs1 : CombState V := { cs with state := jdel cs.state rid }
    let t :=
      if hasProp then
        ({ cs1 with tracked := lerase cs1.tracked rid }, [CombEv.unsubscribed rid])
      else (cs1, ([] : List (CombEv V)))
    (t.1, e1 ++ t.2 ++ [CombEv.callbackFired t.1.state])
  | some c =>
    if c = count then
      let e1 := if hasHooks then [CombEv.enterHook rid] else []
      let r := on_add hasProp proj cs rid
      (r.1, e1 ++ r.2)
    else (cs, [])

/-- The relation listener over a delta batch, entry by entry in map
order. -/
def relation_listener {V : Type} (hasProp hasHooks : Bool)
    (proj : String → Option V) (relmap : JMap String Int) :
    CombState V → List (String × Int) → CombState V × List (CombEv V)
  | cs, [] => (cs, [])
  | cs, (rid, count) :: rest =>
    let r1 := relation_listener_step hasProp hasHooks proj relmap cs rid count
    let r2 := relation_listener hasProp hasHooks proj relmap r1.1 rest
    (r2.1, r1.2 ++ r2.2)

/-- The installation loop of `subscribe_relation` (classes.js lines
64-67): run `on_add` once for every relative already present (no hooks
fire here). -/
def subscribe_relation_install {V : Type} (hasProp : Bool)
    (proj : String → Option V) :
    List (String × Int) → CombState V → CombState V × List (CombEv V)
  | [], cs => (cs, [])
  | (rid, _) :: rest, cs =>
    let r1 := on_add hasProp proj cs rid
    let r2 := subscribe_relation_install hasProp proj rest r1.1
    (r2.1, r1.2 ++ r2.2)

/-- The propagator write on the relation map: each changed relative is
deleted when its new count is zero and written otherwise
(index.js lines 758-767). -/
def apply_batch (relmap : JMap String Int) : List (String × Int) → JMap String Int
  | [] => relmap
  | (rid, n) :: rest =>
    apply_batch (if n = 0 then jdel relmap rid else jset relmap rid n) rest

/-- The delta values the propagator hands to the listeners: new count
minus previously stored count, zero when previously absent. -/
def batch_deltas (relmap : JMap String Int) (batch : List (String × Int)) :
    List (String × Int) :=
  batch.map (fun e => (e.1, e.2 - (jget relmap e.1).getD 0))

/-- One full propagator delivery to the combinator: the relation map is
written first, then the listener runs on the delta map. -/
def comb_step {V : Type} (hasProp hasHooks : Bool) (proj : String → Option V)
    (relmap : JMap String Int) (cs : CombState V) (batch : List (String × Int)) :
    (JMap String Int × CombState V) × List (CombEv V) :=
  let relmap2 := apply_batch relmap batch
  let r := relation_listener hasProp hasHooks proj relmap2 cs (batch_deltas relmap batch)
  ((relmap2, r.1), r.2)

/-- A sequence of propagator deliveries. -/
def comb_run {V : Type} (hasProp hasHooks : Bool) (proj : String → Option V) :
    JMap String Int → CombState V → List (List (String × Int)) →
    (JMap String Int × CombState V) × List (CombEv V)
  | relmap, cs, [] => ((relmap, cs), [])
  | relmap, cs, batch :: rest =>
    let r1 := comb_step hasProp hasHooks proj relmap cs batch
    let r2 := comb_run hasProp hasHooks proj r1.1.1 r1.1.2 rest
    (r2.1, r1.2 ++ r2.2)

/-- The full life of one `subscribe_relation` instance: the installation
loop over the relatives present at subscription time (classes.js lines
64-67, starting from the fresh closure state), then a sequence of
propagator deliveries; the result is the final relation map and closure
state. -/
def comb_life {V : Type} (hasProp hasHooks : Bool) (proj : String → Option V)
    (relmap0 : JMap String Int) (batches : List (List (String × Int))) :
    JMap String Int × CombState V :=
  (comb_run hasProp hasHooks proj relmap0
    (subscribe_relation_install hasProp proj relmap0 ⟨[], []⟩).1 batches).1

/-- A well-formed propagator delivery for the current relation map:
distinct relatives, each reporting a nonnegative count different from the
stored one — exactly what `update` emits. -/
def validBatch (relmap : JMap String Int) (batch : List (String × Int)) : Bool :=
  nodupB (batch.map Prod.fst) &&
  batch.all (fun e => decide (0 ≤ e.2) && decide (e.2 ≠ (jget relmap e.1).getD 0))

/-- A well-formed sequence of deliveries. -/
def validTrace (relmap : JMap String Int) : List (List (String × Int)) → Bool
  | [] => true
  | batch :: rest => validBatch relmap batch && validTrace (apply_batch relmap batch) rest

/-- A well-formed relation map: unique keys, positive counts. -/
def relmapWF (relmap : JMap String Int) : Bool :=
  nodupB (keys relmap) && relmap.all (fun e => decide (0 < e.2))

/-- The from-scratch recomputation of the combinator state: the projection
of every currently present relative, in relation-map order, skipping the
filtered (`none`) ones. -/
def projState {V : Type} (proj : String → Option V) : JMap String Int → JMap String V
  | [] => []
  | e :: rest =>
    match proj e.1 with
    | some v => (e.1, v) :: projState proj rest
    | none => projState proj rest

/-- Count of enter-hook events for a given relative. -/
def isEnterEv (rid : String) : CombEv V → Bool
  | .enterHook r => decide (r = rid)
  | _ => false

def isExitEv (rid : String) : CombEv V → Bool
  | .exitHook r => decide (r = rid)
  | _ => false

def isSubscribeEv (rid : String) : CombEv V → Bool
  | .subscribed r => decide (r = rid)
  | _ => false

def isCallbackEv : CombEv V → Bool
  | .callbackFired _ => true
  | _ => false

/-! ## The units rule with its `unit_max` consumer
(classes.js lines 214-222 and 111-122)

`subscribers.units` is `subscribe_relation(box, "children",
"total-units", "units", c => c.get_property("units", () => null),
children => box.set_property("total-units", ...sum...))` — tracked
property, no hooks.  Every aggregate-callback invocation rewrites
`total-units` to the sum of the saved projections, which synchronously
runs the `unit_max` listener subscribed on `total-units`: it sets the
`units-max` error when the total exceeds the limit and clears it
otherwise. -/

structure UnitsSt where
  comb : CombState Int
  totalUnits : Int
  errors : JMap String String
deriving DecidableEq

/-- `[...children.values()].reduce((a, u) => a + u, 0)`. -/
def units_total (st : JMap String Int) : Int :=
  st.foldl (fun a e => a + e.2) 0

/-- The `check` closure of `subscribers.unit_max` (classes.js lines
112-119). -/
def unit_max_check (limit total : Int) (errors : JMap String String) :
    JMap String String :=
  if limit < total then jset errors ("units-max") (">" ++ toString limit ++ " units")
  else jdel errors ("units-max")

/-- One relation-listener iteration of the units rule: the combinator step
with a tracked property and no hooks; whenever the aggregate callback
fired, `total-units` is recomputed from the saved state and the
`unit_max` listener runs its check on the new total. -/
def units_step_one (proj : String → Option Int) (limit : Int)
    (relmap : JMap String Int) (u : UnitsSt) (rid : String) (count : Int) :
    UnitsSt :=
  let r := relation_listener_step true false proj relmap u.comb rid count
  if r.2.any isCallbackEv then
    let tu := units_total r.1.state
    ⟨r.1, tu, unit_max_check limit tu u.errors⟩
  else ⟨r.1, u.totalUnits, u.errors⟩

/-- The units-rule listener over one delta batch. -/
def units_batch (proj : String → Option Int) (limit : Int)
    (relmap : JMap String Int) : UnitsSt → List (String × Int) → UnitsSt
  | u, [] => u
  | u, (rid, count) :: rest =>
    units_batch proj limit relmap (units_step_one proj limit relmap u rid count) rest

/-- One full propagator delivery to the units rule. -/
def units_step (proj : String → Option Int) (limit : Int)
    (relmap : JMap String Int) (u : UnitsSt) (batch : List (String × Int)) :
    JMap String Int × UnitsSt :=
  let relmap2 := apply_batch relmap batch
  (relmap2, units_batch proj limit relmap2 u (batch_deltas relmap batch))

/-- A sequence of propagator deliveries to the units rule. -/
def units_run (proj : String → Option Int) (limit : Int) :
    JMap String Int → UnitsSt → List (List (String × Int)) →
    JMap String Int × UnitsSt
  | relmap, u, [] => (relmap, u)
  | relmap, u, batch :: rest =>
    let r := units_step proj limit relmap u batch
    units_run proj limit r.1 r.2 rest

/-- Installation of the units rule: `on_add` per initially present child,
each firing the aggregate callback and hence the `unit_max` check. -/
def units_install_loop (proj : String → Option Int) (limit : Int) :
    List (String × Int) → UnitsSt → UnitsSt
  | [], u => u
  | (rid, _) :: rest, u =>
    let r := on_add true proj u.comb rid
    let tu := units_total r.1.state
    units_install_loop proj limit rest ⟨r.1, tu, unit_max_check limit tu u.errors⟩

/-- The quarter pipeline right after construction: `unit_max` installed
(its initial check on the written `total-units = 0` leaves no error),
then the units combinator seeded over the children present at
installation. -/
def units_install (proj : String → Option Int) (limit : Int)
    (relmap : JMap String Int) : UnitsSt :=
  units_install_loop proj limit relmap ⟨⟨[], []⟩, 0, []⟩

/-- The full life of the units rule on one box: installation over the
children present at subscription time, then a sequence of propagator
deliveries. -/
def units_life (proj : String → Option Int) (limit : Int)
    (relmap0 : JMap String Int) (batches : List (List (String × Int))) :
    JMap String Int × UnitsSt :=
  units_run proj limit relmap0 (units_install proj limit relmap0) batches

/-! ## Concrete example registries used by the witnesses -/

/-- A two-box registry: `fall` holds one large region, `m` one region
strictly inside it; no relations stored yet. -/
def exFall : BoxSt := ⟨[⟨(-10, 0), (100, 80)⟩], [], []⟩

def exM : BoxSt := ⟨[⟨(0, 10), (50, 50)⟩], [], []⟩

def exSt : St := ⟨[(("fall"), exFall), (("m"), exM)]⟩

/-- The registry after `recalculate_containment(fall)` on `exSt`. -/
def exSt2 : St :=
  ⟨[(("fall"), ⟨[⟨(-10, 0), (100, 80)⟩], [], [(("m"), 1)]⟩),
    (("m"), ⟨[⟨(0, 10), (50, 50)⟩], [(("fall"), 1)], []⟩)]⟩

/-- The listener trace of that call. -/
def exEvs : List RelEvent :=
  [⟨("m"), Rel.parents, [(("fall"), 1)]⟩, ⟨("fall"), Rel.children, [(("m"), 1)]⟩]

/-! # Lemmas -/

section JMapLemmas

variable {α β : Type} [DecidableEq α]

@[simp]
theorem keys_nil : keys ([] : JMap α β) = [] := rfl

@[simp]
theorem keys_cons (e : α × β) (rest : JMap α β) :
    keys (e :: rest) = e.1 :: keys rest := rfl

theorem jget_jset_self (m : JMap α β) (k : α) (v : β) :
    jget (jset m k v) k = some v := by
  induction m with
  | nil => simp [jget, jset]
  | cons e rest ih =>
    by_cases h : k = e.1 <;> simp [jget, jset, h, ih]

theorem jget_jset_ne (m : JMap α β) {k k' : α} (v : β) (h : k' ≠ k) :
    jget (jset m k v) k' = jget m k' := by
  induction m with
  | nil => simp [jget, jset, h]
  | cons e rest ih =>
    by_cases he : k = e.1
    · subst he
      simp [jget, jset, h]
    · by_cases h2 : k' = e.1 <;> simp [jget, jset, he, h2, ih]

theorem jget_jdel_ne (m : JMap α β) {k k' : α} (h : k' ≠ k) :
    jget (jdel m k) k' = jget m k' := by
  induction m with
  | nil => simp [jdel]
  | cons e rest ih =>
    by_cases he : k = e.1
    · subst he
      simp [jget, jdel, h]
    · by_cases h2 : k' = e.1 <;> simp [jget, jdel, he, h2, ih]

theorem jget_eq_none_of_not_mem {m : JMap α β} {k : α} (h : k ∉ keys m) :
    jget m k = none := by
  induction m with
  | nil => simp [jget]
  | cons e rest ih =>
    simp [keys] at h
    push_neg at h
    simp [jget, h.1, ih (by simpa [keys] using h.2)]

theorem not_mem_of_jget_eq_none {m : JMap α β} {k : α} (h : jget m k = none) :
    k ∉ keys m := by
  induction m with
  | nil => simp [keys]
  | cons e rest ih =>
    simp only [jget] at h
    by_cases he : k = e.1
    · simp [he] at h
    · simp [he] at h
      simpa [keys, he] using ih h

theorem mem_keys_of_jget_eq_some {m : JMap α β} {k : α} {v : β}
    (h : jget m k = some v) : k ∈ keys m := by
  by_contra hk
  rw [jget_eq_none_of_not_mem hk] at h
  exact Option.noConfusion h

theorem jget_jdel_self {m : JMap α β} (k : α) (h : nodupB (keys m) = true) :
    jget (jdel m k) k = none := by
  induction m with
  | nil => simp [jdel, jget]
  | cons e rest ih =>
    simp only [keys, List.map_cons, nodupB, Bool.and_eq_true, decide_eq_true_eq] at h
    by_cases he : k = e.1
    · subst he
      simpa [jdel, keys] using jget_eq_none_of_not_mem (by simpa [keys] using h.1)
    · simp [jdel, jget, he, ih h.2]

theorem jset_of_not_mem {m : JMap α β} {k : α} (v : β) (h : k ∉ keys m) :
    jset m k v = m ++ [(k, v)] := by
  induction m with
  | nil => simp [jset]
  | cons e rest ih =>
    simp [keys] at h
    push_neg at h
    simp [jset, h.1, ih (by simpa [keys] using h.2)]

theorem jdel_of_not_mem {m : JMap α β} {k : α} (h : k ∉ keys m) :
    jdel m k = m := by
  induction m with
  | nil => simp [jdel]
  | cons e rest ih =>
    simp [keys] at h
    push_neg at h
    simp [jdel, h.1, ih (by simpa [keys] using h.2)]

theorem keys_jset_of_mem {m : JMap α β} {k : α} (v : β) (h : k ∈ keys m) :
    keys (jset m k v) = keys m := by
  induction m with
  | nil => simp at h
  | cons e rest ih =>
    by_cases he : k = e.1
    · simp [jset, he]
    · have h2 : k ∈ keys rest := by
        rcases List.mem_cons.mp (by simpa using h) with h1 | h1
        · exact absurd h1 he
        · exact h1
      simp [jset, he, ih h2]

theorem keys_jset_of_not_mem {m : JMap α β} {k : α} (v : β) (h : k ∉ keys m) :
    keys (jset m k v) = keys m ++ [k] := by
  rw [jset_of_not_mem v h]
  simp [keys]

theorem keys_jdel (m : JMap α β) (k : α) :
    keys (jdel m k) = (keys m).erase k := by
  induction m with
  | nil => simp [jdel]
  | cons e rest ih =>
    by_cases he : k = e.1
    · subst he
      simp [jdel, List.erase_cons_head]
    · have hbe : (e.1 == k) = false := by
        simp only [beq_eq_false_iff_ne, ne_eq]
        exact fun hh => he hh.symm
      simp [jdel, he, List.erase_cons, hbe, ih]

theorem nodupB_append_singleton {l : List α} {k : α}
    (h : nodupB l = true) (hk : k ∉ l) : nodupB (l ++ [k]) = true := by
  induction l with
  | nil => simp [nodupB]
  | cons x xs ih =>
    simp only [nodupB, Bool.and_eq_true, decide_eq_true_eq] at h
    simp at hk
    push_neg at hk
    simp only [List.cons_append, nodupB, Bool.and_eq_true, decide_eq_true_eq]
    constructor
    · simp
      push_neg
      exact ⟨h.1, fun hkx => (hk.1 hkx.symm).elim⟩
    · exact ih h.2 hk.2

theorem nodupB_iff_nodup {l : List α} : nodupB l = true ↔ l.Nodup := by
  induction l with
  | nil => simp [nodupB]
  | cons x xs ih =>
    simp [nodupB, ih]

theorem nodupB_keys_jset {m : JMap α β} {k : α} (v : β)
    (h : nodupB (keys m) = true) : nodupB (keys (jset m k v)) = true := by
  by_cases hk : k ∈ keys m
  · rwa [keys_jset_of_mem v hk]
  · rw [keys_jset_of_not_mem v hk]
    exact nodupB_append_singleton h hk

theorem nodupB_keys_jdel {m : JMap α β} (k : α)
    (h : nodupB (keys m) = true) : nodupB (keys (jdel m k)) = true := by
  rw [keys_jdel, nodupB_iff_nodup]
  exact (nodupB_iff_nodup.mp h).erase k

theorem jget_of_mem {m : JMap α β} {k : α} {v : β}
    (hnd : nodupB (keys m) = true) (h : (k, v) ∈ m) : jget m k = some v := by
  induction m with
  | nil => simp at h
  | cons e rest ih =>
    simp only [keys, List.map_cons, nodupB, Bool.and_eq_true, decide_eq_true_eq] at hnd
    rcases List.mem_cons.mp h with h1 | h1
    · subst h1
      simp [jget]
    · have hk : k ≠ e.1 := by
        intro hk
        subst hk
        exact hnd.1 (by simpa [keys] using List.mem_map_of_mem Prod.fst h1)
      simp [jget, hk, ih hnd.2 h1]

theorem mem_of_jget_eq_some {m : JMap α β} {k : α} {v : β}
    (h : jget m k = some v) : (k, v) ∈ m := by
  induction m with
  | nil => simp [jget] at h
  | cons e rest ih =>
    obtain ⟨a, bb⟩ := e
    simp only [jget] at h
    by_cases he : k = a
    · subst he
      simp at h
      subst h
      exact List.mem_cons_self _ _
    · simp [he] at h
      exact List.mem_cons_of_mem _ (ih h)

end JMapLemmas

/-! ## Claims C8, C9, C10 — the property store -/

/-- Claim C8: `get_property` returns the stored value when the property has
been written; when it has never been written it returns the result of the
supplied fallback without persisting it (a subsequent read still sees the
property as unwritten), and calling it on an unwritten property with no
fallback supplied throws immediately. -/
theorem get_property_semantics (b : BoxStore V L) (prop : String)
    (f : Unit → Option V) :
    (∀ v, propValue b prop = some v →
      ∀ fb, (get_property b prop fb).2 = JsResult.ok (some v)) ∧
    (propValue b prop = none →
      (get_property b prop (some f)).2 = JsResult.ok (f ()) ∧
      propValue (get_property b prop (some f)).1 prop = none ∧
      (get_property b prop none).2 =
        JsResult.thrown ("Tried to access uninitialized property: " ++ prop)) := by
  unfold get_property propValue
  rcases hq : jget b.properties prop with _ | slot
  · simp [hq, jget_jset_self]
  · rcases hv : slot.value with _ | v
    · simp [hq, hv]
    · simp [hq, hv]

/-- Witness for C8: a written slot reads back as stored; an unwritten one
yields the fallback result, stays unwritten, and throws without fallback. -/
theorem get_property_semantics_witness :
    (get_property (⟨[(("units"), ⟨some 5, []⟩)]⟩ : BoxStore Nat Unit) ("units") none).2 =
      JsResult.ok (some 5) ∧
    (get_property (⟨[]⟩ : BoxStore Nat Unit) ("units") (some fun _ => some 7)).2 =
      JsResult.ok (some 7) ∧
    propValue (get_property (⟨[]⟩ : BoxStore Nat Unit) ("units")
      (some fun _ => some 7)).1 ("units") = none ∧
    (get_property (⟨[]⟩ : BoxStore Nat Unit) ("units") none).2 =
      JsResult.thrown ("Tried to access uninitialized property: units") := by
  have h1 := get_property_semantics
    (⟨[(("units"), ⟨some 5, []⟩)]⟩ : BoxStore Nat Unit) ("units") (fun _ => some 7)
  have h2 := get_property_semantics (⟨[]⟩ : BoxStore Nat Unit) ("units") (fun _ => some 7)
  have h2u := h2.2 rfl
  exact ⟨h1.1 5 rfl none, h2u.1, h2u.2.1, h2u.2.2⟩

/-- Claim C9 (code bug in the source): `unsubscribe` does remove the
callback stored under the label when the property slot exists, and is a
no-op when the label is not subscribed; but when the property has no
entry at all it throws a `ReferenceError` (the source shorthand
`{ value, listeners: new Map() }` names an unbound identifier) instead of
completing without fault. -/
theorem unsubscribe_missing_property_throws :
    unsubscribe (⟨[]⟩ : BoxStore Nat Unit) ("units") ("x") =
      JsResult.thrown ("ReferenceError: value is not defined") ∧
    unsubscribe (⟨[(("units"), ⟨some 5, [(("y"), ())]⟩)]⟩ : BoxStore Nat Unit)
        ("units") ("x") =
      JsResult.ok ⟨[(("units"), ⟨some 5, [(("y"), ())]⟩)]⟩ ∧
    unsubscribe (⟨[(("units"), ⟨some 5, [(("x"), ())]⟩)]⟩ : BoxStore Nat Unit)
        ("units") ("x") =
      JsResult.ok ⟨[(("units"), ⟨some 5, []⟩)]⟩ := by
  refine ⟨by decide, by decide, by decide⟩

/-- Claim C10: a slot holding JS null is indistinguishable from an
unwritten property: `get_property` returns the same outcome as on a store
without the slot, the next `set_property` re-runs its initializer before
applying the mutation, and a fallback-less read can only return a
non-null stored value. -/
theorem null_value_reads_as_unwritten (b : BoxStore V L) (prop : String)
    (hnd : nodupB (keys b.properties) = true)
    (slot : PropSlot V L) (hs : jget b.properties prop = some slot)
    (hv : slot.value = none) :
    (∀ fb, (get_property b prop fb).2 =
      (get_property (⟨jdel b.properties prop⟩ : BoxStore V L) prop fb).2) ∧
    (∀ initializer updatef,
      propValue (set_property b prop initializer updatef).1 prop =
        updatef (initializer ())) ∧
    ((get_property b prop none).2 =
      JsResult.thrown ("Tried to access uninitialized property: " ++ prop)) ∧
    (∀ (b2 : BoxStore V L) r, (get_property b2 prop none).2 = JsResult.ok r →
      ∃ w, r = some w ∧ propValue b2 prop = some w) := by
  have hdel : jget (jdel b.properties prop) prop = none := jget_jdel_self prop hnd
  refine ⟨?_, ?_, ?_, ?_⟩
  · intro fb
    cases fb <;> simp [get_property, hs, hv, hdel, jget_jset_self]
  · intro initializer updatef
    simp [set_property, propValue, hs, hv, jget_jset_self]
  · simp [get_property, hs, hv]
  · intro b2 r h
    unfold get_property at h
    rcases hq : jget b2.properties prop with _ | slot2
    · simp [hq, jget_jset_self] at h
    · rcases hv2 : slot2.value with _ | w
      · simp [hq, hv2] at h
      · simp [hq, hv2] at h
        exact ⟨w, h.symm, by simp [propValue, hq, hv2]⟩

/-! ## Resolver lemmas -/

theorem nodupB_cons {α : Type} [DecidableEq α] {x : α} {l : List α} :
    nodupB (x :: l) = true ↔ x ∉ l ∧ nodupB l = true := by
  simp [nodupB]

theorem foldl_count_aux (p : Dim → Bool) (l : List Dim) (acc : Int) :
    l.foldl (fun a cd => if p cd then a + 1 else a) acc =
      acc + (l.countP p : Nat) := by
  induction l generalizing acc with
  | nil => simp
  | cons d rest ih =>
    by_cases hp : p d
    · simp only [List.foldl_cons, if_pos hp, ih, List.countP_cons, hp, if_true]
      push_cast
      ring
    · simp [List.countP_cons, hp, ih]

theorem parent_count_aux (cand : BoxSt) (l : List Dim) (acc : Int) :
    l.foldl (fun acc2 d =>
      cand.svgs.foldl (fun a cd => if is_parent d cd then a + 1 else a) acc2) acc =
      acc + ((l ×ˢ cand.svgs).countP fun q => is_parent q.1 q.2 : Nat) := by
  induction l generalizing acc with
  | nil => simp
  | cons d rest ih =>
    simp only [List.foldl_cons]
    rw [foldl_count_aux, ih, List.product_cons, List.countP_append, List.countP_map]
    have : (List.countP ((fun q : Dim × Dim => is_parent q.1 q.2) ∘ fun b => (d, b))
        cand.svgs) = cand.svgs.countP (fun cd => is_parent d cd) := rfl
    rw [this]
    push_cast
    ring

theorem child_count_aux (cand : BoxSt) (l : List Dim) (acc : Int) :
    l.foldl (fun acc2 d =>
      cand.svgs.foldl (fun a cd => if is_child d cd then a + 1 else a) acc2) acc =
      acc + ((l ×ˢ cand.svgs).countP fun q => is_child q.1 q.2 : Nat) := by
  induction l generalizing acc with
  | nil => simp
  | cons d rest ih =>
    simp only [List.foldl_cons]
    rw [foldl_count_aux, ih, List.product_cons, List.countP_append, List.countP_map]
    have : (List.countP ((fun q : Dim × Dim => is_child q.1 q.2) ∘ fun b => (d, b))
        cand.svgs) = cand.svgs.countP (fun cd => is_child d cd) := rfl
    rw [this]
    push_cast
    ring

/-- The accumulated count is the number of strictly containing pairs over
the full cross product of origin and candidate regions. -/
theorem parent_count_eq_countP (box cand : BoxSt) :
    parent_count box cand =
      ((box.svgs ×ˢ cand.svgs).countP fun q => is_parent q.1 q.2 : Nat) := by
  unfold parent_count
  simpa using parent_count_aux cand box.svgs 0

theorem child_count_eq_countP (box cand : BoxSt) :
    child_count box cand =
      ((box.svgs ×ˢ cand.svgs).countP fun q => is_child q.1 q.2 : Nat) := by
  unfold child_count
  simpa using child_count_aux cand box.svgs 0

theorem is_parent_iff (d p : Dim) :
    is_parent d p = true ↔
      (p.left_top.1 < d.left_top.1 ∧ p.left_top.2 < d.left_top.2 ∧
       p.right_bottom.1 > d.right_bottom.1 ∧ p.right_bottom.2 > d.right_bottom.2) := by
  simp [is_parent, and_assoc]

theorem is_child_iff (d c : Dim) :
    is_child d c = true ↔
      (c.left_top.1 > d.left_top.1 ∧ c.left_top.2 > d.left_top.2 ∧
       c.right_bottom.1 < d.right_bottom.1 ∧ c.right_bottom.2 < d.right_bottom.2) := by
  simp [is_child, and_assoc]

theorem keys_resolve_parents_sub {box : BoxSt} {id : String}
    {bs : List (String × BoxSt)} {x : String}
    (h : x ∈ keys (resolve box id bs).1) : x ∈ keys bs ∧ x ≠ id := by
  induction bs with
  | nil => simp [resolve] at h
  | cons e rest ih =>
    obtain ⟨cid, cand⟩ := e
    simp only [resolve] at h
    by_cases hid : cid = id
    · simp only [if_pos hid] at h
      obtain ⟨h1, h2⟩ := ih h
      exact ⟨List.mem_cons_of_mem _ h1, h2⟩
    · simp only [if_neg hid] at h
      by_cases hch : (jget box.parents cid).getD 0 ≠ parent_count box cand
      · simp only [if_pos hch, keys_cons] at h
        rcases List.mem_cons.mp h with h1 | h1
        · subst h1
          exact ⟨by simp, hid⟩
        · obtain ⟨ha, hb⟩ := ih h1
          exact ⟨List.mem_cons_of_mem _ ha, hb⟩
      · simp only [if_neg hch] at h
        obtain ⟨ha, hb⟩ := ih h
        exact ⟨List.mem_cons_of_mem _ ha, hb⟩

theorem keys_resolve_children_sub {box : BoxSt} {id : String}
    {bs : List (String × BoxSt)} {x : String}
    (h : x ∈ keys (resolve box id bs).2) : x ∈ keys bs ∧ x ≠ id := by
  induction bs with
  | nil => simp [resolve] at h
  | cons e rest ih =>
    obtain ⟨cid, cand⟩ := e
    simp only [resolve] at h
    by_cases hid : cid = id
    · simp only [if_pos hid] at h
      obtain ⟨h1, h2⟩ := ih h
      exact ⟨List.mem_cons_of_mem _ h1, h2⟩
    · simp only [if_neg hid] at h
      by_cases hch : (jget box.children cid).getD 0 ≠ child_count box cand
      · simp only [if_pos hch, keys_cons] at h
        rcases List.mem_cons.mp h with h1 | h1
        · subst h1
          exact ⟨by simp, hid⟩
        · obtain ⟨ha, hb⟩ := ih h1
          exact ⟨List.mem_cons_of_mem _ ha, hb⟩
      · simp only [if_neg hch] at h
        obtain ⟨ha, hb⟩ := ih h
        exact ⟨List.mem_cons_of_mem _ ha, hb⟩

theorem jget_resolve_parents (box : BoxSt) {id : String}
    {bs : List (String × BoxSt)} (hnd : nodupB (keys bs) = true)
    {cid : String} {cand : BoxSt} (hc : jget bs cid = some cand) (hne : cid ≠ id) :
    jget (resolve box id bs).1 cid =
      (if (jget box.parents cid).getD 0 = parent_count box cand then none
       else some (parent_count box cand)) := by
  induction bs with
  | nil => simp [jget] at hc
  | cons e rest ih =>
    obtain ⟨a, ab⟩ := e
    have hnd2 := (nodupB_cons.mp (by simpa using hnd))
    simp only [jget] at hc
    simp only [resolve]
    by_cases hca : cid = a
    · subst hca
      simp only [if_pos rfl] at hc
      injection hc with hc
      subst hc
      have hcidid : ¬cid = id := hne
      simp only [if_neg hcidid]
      by_cases hch : (jget box.parents cid).getD 0 = parent_count box ab
      · have hnotmem : cid ∉ keys (resolve box id rest).1 := by
          intro hx
          exact hnd2.1 (keys_resolve_parents_sub hx).1
        simp [hch, jget_eq_none_of_not_mem hnotmem]
      · simp [hch, jget]
    · simp only [if_neg hca] at hc
      by_cases hid : a = id
      · simp only [if_pos hid]
        exact ih hnd2.2 hc
      · simp only [if_neg hid]
        by_cases hch : (jget box.parents a).getD 0 ≠ parent_count box ab
        · simp only [if_pos hch, jget, if_neg hca]
          exact ih hnd2.2 hc
        · simp only [if_neg hch]
          exact ih hnd2.2 hc

theorem jget_resolve_children (box : BoxSt) {id : String}
    {bs : List (String × BoxSt)} (hnd : nodupB (keys bs) = true)
    {cid : String} {cand : BoxSt} (hc : jget bs cid = some cand) (hne : cid ≠ id) :
    jget (resolve box id bs).2 cid =
      (if (jget box.children cid).getD 0 = child_count box cand then none
       else some (child_count box cand)) := by
  induction bs with
  | nil => simp [jget] at hc
  | cons e rest ih =>
    obtain ⟨a, ab⟩ := e
    have hnd2 := (nodupB_cons.mp (by simpa using hnd))
    simp only [jget] at hc
    simp only [resolve]
    by_cases hca : cid = a
    · subst hca
      simp only [if_pos rfl] at hc
      injection hc with hc
      subst hc
      have hcidid : ¬cid = id := hne
      simp only [if_neg hcidid]
      by_cases hch : (jget box.children cid).getD 0 = child_count box ab
      · have hnotmem : cid ∉ keys (resolve box id rest).2 := by
          intro hx
          exact hnd2.1 (keys_resolve_children_sub hx).1
        simp [hch, jget_eq_none_of_not_mem hnotmem]
      · simp [hch, jget]
    · simp only [if_neg hca] at hc
      by_cases hid : a = id
      · simp only [if_pos hid]
        exact ih hnd2.2 hc
      · simp only [if_neg hid]
        by_cases hch : (jget box.children a).getD 0 ≠ child_count box ab
        · simp only [if_pos hch, jget, if_neg hca]
          exact ih hnd2.2 hc
        · simp only [if_neg hch]
          exact ih hnd2.2 hc

theorem jget_resolve_parents_none {box : BoxSt} {id : String}
    {bs : List (String × BoxSt)} {cid : String}
    (h : cid = id ∨ jget bs cid = none) :
    jget (resolve box id bs).1 cid = none := by
  apply jget_eq_none_of_not_mem
  intro hx
  obtain ⟨h1, h2⟩ := keys_resolve_parents_sub hx
  rcases h with h | h
  · exact h2 h
  · exact not_mem_of_jget_eq_none h h1

theorem jget_resolve_children_none {box : BoxSt} {id : String}
    {bs : List (String × BoxSt)} {cid : String}
    (h : cid = id ∨ jget bs cid = none) :
    jget (resolve box id bs).2 cid = none := by
  apply jget_eq_none_of_not_mem
  intro hx
  obtain ⟨h1, h2⟩ := keys_resolve_children_sub hx
  rcases h with h | h
  · exact h2 h
  · exact not_mem_of_jget_eq_none h h1

theorem resolve_parents_mem {box : BoxSt} {id : String}
    {bs : List (String × BoxSt)} {cid : String} {n : Int}
    (h : (cid, n) ∈ (resolve box id bs).1) :
    ∃ cand, (cid, cand) ∈ bs ∧ cid ≠ id ∧ n = parent_count box cand ∧
      (jget box.parents cid).getD 0 ≠ n := by
  induction bs with
  | nil => simp [resolve] at h
  | cons e rest ih =>
    obtain ⟨a, ab⟩ := e
    simp only [resolve] at h
    by_cases hid : a = id
    · simp only [if_pos hid] at h
      obtain ⟨cand, h1, h2, h3⟩ := ih h
      exact ⟨cand, List.mem_cons_of_mem _ h1, h2, h3⟩
    · simp only [if_neg hid] at h
      by_cases hch : (jget box.parents a).getD 0 ≠ parent_count box ab
      · simp only [if_pos hch] at h
        rcases List.mem_cons.mp h with h1 | h1
        · injection h1 with ha hb
          subst ha
          subst hb
          exact ⟨ab, List.mem_cons_self _ _, hid, rfl, hch⟩
        · obtain ⟨cand, hh1, hh2, hh3⟩ := ih h1
          exact ⟨cand, List.mem_cons_of_mem _ hh1, hh2, hh3⟩
      · simp only [if_neg hch] at h
        obtain ⟨cand, hh1, hh2, hh3⟩ := ih h
        exact ⟨cand, List.mem_cons_of_mem _ hh1, hh2, hh3⟩

theorem resolve_children_mem {box : BoxSt} {id : String}
    {bs : List (String × BoxSt)} {cid : String} {n : Int}
    (h : (cid, n) ∈ (resolve box id bs).2) :
    ∃ cand, (cid, cand) ∈ bs ∧ cid ≠ id ∧ n = child_count box cand ∧
      (jget box.children cid).getD 0 ≠ n := by
  induction bs with
  | nil => simp [resolve] at h
  | cons e rest ih =>
    obtain ⟨a, ab⟩ := e
    simp only [resolve] at h
    by_cases hid : a = id
    · simp only [if_pos hid] at h
      obtain ⟨cand, h1, h2, h3⟩ := ih h
      exact ⟨cand, List.mem_cons_of_mem _ h1, h2, h3⟩
    · simp only [if_neg hid] at h
      by_cases hch : (jget box.children a).getD 0 ≠ child_count box ab
      · simp only [if_pos hch] at h
        rcases List.mem_cons.mp h with h1 | h1
        · injection h1 with ha hb
          subst ha
          subst hb
          exact ⟨ab, List.mem_cons_self _ _, hid, rfl, hch⟩
        · obtain ⟨cand, hh1, hh2, hh3⟩ := ih h1
          exact ⟨cand, List.mem_cons_of_mem _ hh1, hh2, hh3⟩
      · simp only [if_neg hch] at h
        obtain ⟨cand, hh1, hh2, hh3⟩ := ih h
        exact ⟨cand, List.mem_cons_of_mem _ hh1, hh2, hh3⟩

/-- Whenever the resolver reports a count change to zero, the original map
stores a nonzero entry for that relative — so the source delta
`0 - original.get(relative_id)` is well defined. -/
theorem resolve_zero_has_original {box : BoxSt} {id : String}
    {bs : List (String × BoxSt)} {cid : String}
    (h : (cid, (0 : Int)) ∈ (resolve box id bs).1) :
    ∃ k, jget box.parents cid = some k ∧ k ≠ 0 := by
  obtain ⟨cand, _, _, _, hne⟩ := resolve_parents_mem h
  rcases hk : jget box.parents cid with _ | k
  · rw [hk] at hne
    simp at hne
  · rw [hk] at hne
    simp at hne
    exact ⟨k, rfl, fun h0 => hne (by simp [h0])⟩

theorem keys_resolve_parents_nodup {box : BoxSt} {id : String}
    {bs : List (String × BoxSt)} (hnd : nodupB (keys bs) = true) :
    nodupB (keys (resolve box id bs).1) = true := by
  induction bs with
  | nil => simp [resolve, nodupB]
  | cons e rest ih =>
    obtain ⟨a, ab⟩ := e
    have hnd2 := (nodupB_cons.mp (by simpa using hnd))
    simp only [resolve]
    by_cases hid : a = id
    · simp only [if_pos hid]
      exact ih hnd2.2
    · simp only [if_neg hid]
      by_cases hch : (jget box.parents a).getD 0 ≠ parent_count box ab
      · simp only [if_pos hch, keys_cons]
        refine nodupB_cons.mpr ⟨?_, ih hnd2.2⟩
        intro hx
        exact hnd2.1 (keys_resolve_parents_sub hx).1
      · simp only [if_neg hch]
        exact ih hnd2.2

theorem keys_resolve_children_nodup {box : BoxSt} {id : String}
    {bs : List (String × BoxSt)} (hnd : nodupB (keys bs) = true) :
    nodupB (keys (resolve box id bs).2) = true := by
  induction bs with
  | nil => simp [resolve, nodupB]
  | cons e rest ih =>
    obtain ⟨a, ab⟩ := e
    have hnd2 := (nodupB_cons.mp (by simpa using hnd))
    simp only [resolve]
    by_cases hid : a = id
    · simp only [if_pos hid]
      exact ih hnd2.2
    · simp only [if_neg hid]
      by_cases hch : (jget box.children a).getD 0 ≠ child_count box ab
      · simp only [if_pos hch, keys_cons]
        refine nodupB_cons.mpr ⟨?_, ih hnd2.2⟩
        intro hx
        exact hnd2.1 (keys_resolve_children_sub hx).1
      · simp only [if_neg hch]
        exact ih hnd2.2

/-! ## Claim C5 — resolver correctness -/

/-- Claim C5: the resolver counts, over the full cross product of origin
regions and candidate regions, the pairs in strict containment in each
direction (touching edges excluded), and its two output maps contain
exactly the candidates whose newly computed count differs from the
currently stored one — other ids, the origin itself, and unchanged
relations are absent from the output. -/
theorem resolver_correct (s : St) (id : String) (box : BoxSt)
    (hwf : wfSt s = true) (hbox : jget s.boxes id = some box) :
    (∀ d p, is_parent d p = true ↔
      (p.left_top.1 < d.left_top.1 ∧ p.left_top.2 < d.left_top.2 ∧
       p.right_bottom.1 > d.right_bottom.1 ∧ p.right_bottom.2 > d.right_bottom.2)) ∧
    (∀ cand : BoxSt, parent_count box cand =
      ((box.svgs ×ˢ cand.svgs).countP fun q => is_parent q.1 q.2 : Nat)) ∧
    (∀ cand : BoxSt, child_count box cand =
      ((box.svgs ×ˢ cand.svgs).countP fun q => is_child q.1 q.2 : Nat)) ∧
    (∀ cid cand, jget s.boxes cid = some cand → cid ≠ id →
      jget (resolve box id s.boxes).1 cid =
        (if (jget box.parents cid).getD 0 = parent_count box cand then none
         else some (parent_count box cand)) ∧
      jget (resolve box id s.boxes).2 cid =
        (if (jget box.children cid).getD 0 = child_count box cand then none
         else some (child_count box cand))) ∧
    (∀ cid, cid = id ∨ jget s.boxes cid = none →
      jget (resolve box id s.boxes).1 cid = none ∧
      jget (resolve box id s.boxes).2 cid = none) := by
  have hnd : nodupB (keys s.boxes) = true := by
    unfold wfSt at hwf
    simp only [Bool.and_eq_true] at hwf
    exact hwf.1
  refine ⟨is_parent_iff, parent_count_eq_countP box, child_count_eq_countP box,
    ?_, ?_⟩
  · intro cid cand hc hne
    exact ⟨jget_resolve_parents box hnd hc hne, jget_resolve_children box hnd hc hne⟩
  · intro cid h
    exact ⟨jget_resolve_parents_none h, jget_resolve_children_none h⟩

/-- Witness for C5 on the two-box example registry. -/
theorem resolver_correct_witness :
    wfSt exSt = true ∧
    jget (resolve exFall ("fall") exSt.boxes).1 ("m") = none ∧
    jget (resolve exFall ("fall") exSt.boxes).2 ("m") = some 1 := by
  have h := resolver_correct exSt ("fall") exFall (by decide) (by decide)
  have h2 := (h.2.2.2.1 ("m") exM (by decide) (by decide))
  refine ⟨by decide, ?_, ?_⟩
  · rw [h2.1]
    decide
  · rw [h2.2]
    decide

/-! ## Propagator lemmas -/

theorem Rel.other_other (f : Rel) : f.other.other = f := by
  cases f <;> rfl

theorem rel_setRel_self (b : BoxSt) (f : Rel) (m : JMap String Int) :
    (b.setRel f m).rel f = m := by
  cases f <;> rfl

theorem rel_setRel_other (b : BoxSt) {f g : Rel} (m : JMap String Int) (h : g ≠ f) :
    (b.setRel f m).rel g = b.rel g := by
  cases f with
  | parents =>
    cases g with
    | parents => exact absurd rfl h
    | children => rfl
  | children =>
    cases g with
    | parents => rfl
    | children => exact absurd rfl h

theorem setRel_setRel (b : BoxSt) (f : Rel) (m m' : JMap String Int) :
    (b.setRel f m).setRel f m' = b.setRel f m' := by
  cases f <;> rfl

theorem svgs_setRel (b : BoxSt) (f : Rel) (m : JMap String Int) :
    (b.setRel f m).svgs = b.svgs := by
  cases f <;> rfl

theorem setRel_rel_self (b : BoxSt) (f : Rel) : b.setRel f (b.rel f) = b := by
  cases f <;> rfl

theorem jget_map_modify (l : JMap String BoxSt) (a : String) (f : BoxSt → BoxSt)
    (b : String) :
    jget (l.map (fun e => if e.1 = a then (e.1, f e.2) else e)) b =
      (if b = a then (jget l b).map f else jget l b) := by
  induction l with
  | nil => by_cases hb : b = a <;> simp [jget, hb]
  | cons e rest ih =>
    by_cases ha : e.1 = a
    · by_cases hb : b = e.1
      · subst hb
        simp [jget, ha, List.map_cons]
      · simp only [List.map_cons, if_pos ha, jget, if_neg hb, ih]
    · by_cases hb : b = e.1
      · subst hb
        simp [jget, ha, List.map_cons]
      · simp only [List.map_cons, if_neg ha, jget, if_neg hb, ih]

theorem jget_modifyBox (s : St) (a : String) (f : BoxSt → BoxSt) (b : String) :
    jget (modifyBox s a f).boxes b =
      (if b = a then (jget s.boxes b).map f else jget s.boxes b) := by
  simpa [modifyBox] using jget_map_modify s.boxes a f b

theorem keys_modifyBox (s : St) (a : String) (f : BoxSt → BoxSt) :
    keys (modifyBox s a f).boxes = keys s.boxes := by
  rcases s with ⟨l⟩
  simp only [modifyBox, keys, List.map_map]
  apply List.map_congr_left
  intro e _
  by_cases ha : e.1 = a <;> simp [ha]

theorem apply_batch_jget_not_mem {m : JMap String Int}
    {batch : List (String × Int)} {rid : String}
    (h : rid ∉ batch.map Prod.fst) :
    jget (apply_batch m batch) rid = jget m rid := by
  induction batch generalizing m with
  | nil => rfl
  | cons e rest ih =>
    simp only [List.map_cons, List.mem_cons] at h
    push_neg at h
    obtain ⟨e1, e2⟩ := e
    simp only [apply_batch]
    rw [ih h.2]
    by_cases h0 : e2 = 0
    · simp only [if_pos h0]
      exact jget_jdel_ne m h.1
    · simp only [if_neg h0]
      exact jget_jset_ne m e2 h.1

theorem apply_batch_nodup {m : JMap String Int} {batch : List (String × Int)}
    (h : nodupB (keys m) = true) :
    nodupB (keys (apply_batch m batch)) = true := by
  induction batch generalizing m with
  | nil => exact h
  | cons e rest ih =>
    obtain ⟨e1, e2⟩ := e
    simp only [apply_batch]
    by_cases h0 : e2 = 0
    · simp only [if_pos h0]
      exact ih (nodupB_keys_jdel e1 h)
    · simp only [if_neg h0]
      exact ih (nodupB_keys_jset e2 h)

theorem apply_batch_jget_mem {m : JMap String Int} {batch : List (String × Int)}
    {rid : String} {nc : Int}
    (hm : nodupB (keys m) = true) (hb : nodupB (batch.map Prod.fst) = true)
    (h : (rid, nc) ∈ batch) :
    jget (apply_batch m batch) rid = (if nc = 0 then none else some nc) := by
  induction batch generalizing m with
  | nil => simp at h
  | cons e rest ih =>
    obtain ⟨e1, e2⟩ := e
    have hb2 := nodupB_cons.mp (by simpa using hb)
    rcases List.mem_cons.mp h with h1 | h1
    · injection h1 with ha hv
      subst ha
      subst hv
      have hrid : rid ∉ rest.map Prod.fst := hb2.1
      simp only [apply_batch]
      rw [apply_batch_jget_not_mem hrid]
      by_cases h0 : nc = 0
      · simp only [if_pos h0]
        rw [jget_jdel_self rid hm]
      · simp only [if_neg h0]
        rw [jget_jset_self]
    · simp only [apply_batch]
      by_cases h0 : e2 = 0
      · simp only [if_pos h0]
        exact ih (nodupB_keys_jdel e1 hm) hb2.2 h1
      · simp only [if_neg h0]
        exact ih (nodupB_keys_jset e2 hm) hb2.2 h1

theorem wfSt_boxes_nodup {s : St} (h : wfSt s = true) :
    nodupB (keys s.boxes) = true := by
  unfold wfSt at h
  simp only [Bool.and_eq_true] at h
  exact h.1

theorem wfSt_rel {s : St} {a : String} {bx : BoxSt} (f : Rel)
    (h : wfSt s = true) (ha : jget s.boxes a = some bx) :
    nodupB (keys (bx.rel f)) = true := by
  unfold wfSt at h
  simp only [Bool.and_eq_true, List.all_eq_true] at h
  have h2 := h.2 (a, bx) (mem_of_jget_eq_some ha)
  simp only [Bool.and_eq_true] at h2
  cases f with
  | parents => exact h2.1
  | children => exact h2.2

theorem Rel.other_ne (f : Rel) : f.other ≠ f := by
  cases f <;> simp [Rel.other]

theorem update_loop_events (id : String) (original : JMap String Int) (field : Rel)
    (l : List (String × Int)) (s : St) :
    (update_loop id original field l s).2 =
      l.map (fun e =>
        (⟨e.1, field.other, [(id, e.2 - (jget original e.1).getD 0)]⟩ : RelEvent)) := by
  induction l generalizing s with
  | nil => rfl
  | cons e rest ih =>
    obtain ⟨rid, nc⟩ := e
    simp only [update_loop, List.map_cons]
    rw [ih]

theorem update_loop_origin (id : String) (original : JMap String Int) (field : Rel)
    (l : List (String × Int)) (s : St) (hne : ∀ e ∈ l, e.1 ≠ id) :
    jget (update_loop id original field l s).1.boxes id =
      (jget s.boxes id).map
        (fun bx => bx.setRel field (apply_batch (bx.rel field) l)) := by
  induction l generalizing s with
  | nil =>
    simp only [update_loop, apply_batch]
    cases hq : jget s.boxes id with
    | none => rfl
    | some bx => simp [setRel_rel_self]
  | cons e rest ih =>
    obtain ⟨rid, nc⟩ := e
    have hrid : rid ≠ id := hne (rid, nc) (List.mem_cons_self _ _)
    have hidrid : id ≠ rid := fun h => hrid h.symm
    simp only [update_loop]
    rw [ih _ (fun e he => hne e (List.mem_cons_of_mem _ he))]
    by_cases h0 : nc = 0
    · simp only [if_pos h0]
      rw [jget_modifyBox, if_neg hidrid, jget_modifyBox, if_pos rfl]
      cases hq : jget s.boxes id with
      | none => rfl
      | some bx =>
        simp only [Option.map_some']
        rw [rel_setRel_self, setRel_setRel]
        simp [apply_batch, h0]
    · simp only [if_neg h0]
      rw [jget_modifyBox, if_neg hidrid, jget_modifyBox, if_pos rfl]
      cases hq : jget s.boxes id with
      | none => rfl
      | some bx =>
        simp only [Option.map_some']
        rw [rel_setRel_self, setRel_setRel]
        simp [apply_batch, h0]

theorem update_loop_frame (id : String) (original : JMap String Int) (field : Rel)
    (l : List (String × Int)) (s : St) {b : String}
    (hb : b ≠ id) (hbl : b ∉ l.map Prod.fst) :
    jget (update_loop id original field l s).1.boxes b = jget s.boxes b := by
  induction l generalizing s with
  | nil => rfl
  | cons e rest ih =>
    obtain ⟨rid, nc⟩ := e
    simp only [List.map_cons, List.mem_cons] at hbl
    push_neg at hbl
    simp only [update_loop]
    rw [ih _ hbl.2]
    by_cases h0 : nc = 0
    · simp only [if_pos h0]
      rw [jget_modifyBox, if_neg hbl.1, jget_modifyBox, if_neg hb]
    · simp only [if_neg h0]
      rw [jget_modifyBox, if_neg hbl.1, jget_modifyBox, if_neg hb]

theorem update_loop_mirror (id : String) (original : JMap String Int) (field : Rel)
    (l : List (String × Int)) (s : St) {rid : String} {nc : Int}
    (hmem : (rid, nc) ∈ l) (hnd : nodupB (l.map Prod.fst) = true)
    (hne : ∀ e ∈ l, e.1 ≠ id) :
    jget (update_loop id original field l s).1.boxes rid =
      (jget s.boxes rid).map (fun bx => bx.setRel field.other
        (if nc = 0 then jdel (bx.rel field.other) id
         else jset (bx.rel field.other) id nc)) := by
  induction l generalizing s with
  | nil => simp at hmem
  | cons e rest ih =>
    obtain ⟨e1, e2⟩ := e
    have hnd2 := nodupB_cons.mp (by simpa using hnd)
    have hrid : rid ≠ id := by
      rcases List.mem_cons.mp hmem with h1 | h1
      · injection h1 with ha hv
        subst ha
        exact hne (rid, e2) (List.mem_cons_self _ _)
      · exact hne (rid, nc) (List.mem_cons_of_mem _ h1)
    simp only [update_loop]
    rcases List.mem_cons.mp hmem with h1 | h1
    · injection h1 with ha hv
      subst ha
      subst hv
      rw [update_loop_frame _ _ _ _ _ hrid hnd2.1]
      by_cases h0 : nc = 0
      · simp only [if_pos h0]
        rw [jget_modifyBox, if_pos rfl, jget_modifyBox, if_neg hrid]
      · simp only [if_neg h0]
        rw [jget_modifyBox, if_pos rfl, jget_modifyBox, if_neg hrid]
    · have hre1 : rid ≠ e1 := by
        intro h
        subst h
        exact hnd2.1 (by simpa using List.mem_map_of_mem Prod.fst h1)
      rw [ih _ h1 hnd2.2 (fun e he => hne e (List.mem_cons_of_mem _ he))]
      by_cases h0 : e2 = 0
      · simp only [if_pos h0]
        rw [jget_modifyBox, if_neg hre1, jget_modifyBox, if_neg hrid]
      · simp only [if_neg h0]
        rw [jget_modifyBox, if_neg hre1, jget_modifyBox, if_neg hrid]

theorem jget_modifyBox_svgs (s : St) (a : String) (f : BoxSt → BoxSt)
    (hf : ∀ bx, (f bx).svgs = bx.svgs) (b : String) :
    (jget (modifyBox s a f).boxes b).map BoxSt.svgs =
      (jget s.boxes b).map BoxSt.svgs := by
  rw [jget_modifyBox]
  by_cases hb : b = a
  · simp only [if_pos hb]
    cases jget s.boxes b with
    | none => rfl
    | some bx => simp [hf]
  · simp [hb]

theorem update_loop_svgs (id : String) (original : JMap String Int) (field : Rel)
    (l : List (String × Int)) (s : St) (b : String) :
    (jget (update_loop id original field l s).1.boxes b).map BoxSt.svgs =
      (jget s.boxes b).map BoxSt.svgs := by
  induction l generalizing s with
  | nil => rfl
  | cons e rest ih =>
    obtain ⟨rid, nc⟩ := e
    simp only [update_loop]
    rw [ih]
    by_cases h0 : nc = 0
    · simp only [if_pos h0]
      rw [jget_modifyBox_svgs _ _ _ (fun bx => svgs_setRel _ _ _),
        jget_modifyBox_svgs _ _ _ (fun bx => svgs_setRel _ _ _)]
    · simp only [if_neg h0]
      rw [jget_modifyBox_svgs _ _ _ (fun bx => svgs_setRel _ _ _),
        jget_modifyBox_svgs _ _ _ (fun bx => svgs_setRel _ _ _)]

theorem update_loop_keys (id : String) (original : JMap String Int) (field : Rel)
    (l : List (String × Int)) (s : St) :
    keys (update_loop id original field l s).1.boxes = keys s.boxes := by
  induction l generalizing s with
  | nil => rfl
  | cons e rest ih =>
    obtain ⟨rid, nc⟩ := e
    simp only [update_loop]
    rw [ih]
    by_cases h0 : nc = 0
    · simp only [if_pos h0]
      rw [keys_modifyBox, keys_modifyBox]
    · simp only [if_neg h0]
      rw [keys_modifyBox, keys_modifyBox]

theorem wfSt_modifyBox {s : St} {a : String} {f : BoxSt → BoxSt}
    (hw : wfSt s = true)
    (hf : ∀ bx : BoxSt, nodupB (keys bx.parents) = true →
      nodupB (keys bx.children) = true →
      nodupB (keys (f bx).parents) = true ∧ nodupB (keys (f bx).children) = true) :
    wfSt (modifyBox s a f) = true := by
  have hk := keys_modifyBox s a f
  unfold wfSt at hw ⊢
  simp only [Bool.and_eq_true, List.all_eq_true] at hw ⊢
  constructor
  · rw [hk]
    exact hw.1
  · intro e he
    simp only [modifyBox] at he
    obtain ⟨e0, he0, hge⟩ := List.mem_map.mp he
    have hwe := hw.2 e0 he0
    simp only [Bool.and_eq_true] at hwe
    have hge2 : (if e0.1 = a then (e0.1, f e0.2) else e0) = e := hge
    by_cases ha : e0.1 = a
    · rw [if_pos ha] at hge2
      subst hge2
      simpa using hf e0.2 hwe.1 hwe.2
    · rw [if_neg ha] at hge2
      subst hge2
      simpa using hwe

theorem setRel_op_nodup {field : Rel} {op : JMap String Int → JMap String Int}
    (hop : ∀ m, nodupB (keys m) = true → nodupB (keys (op m)) = true)
    (bx : BoxSt) (h1 : nodupB (keys bx.parents) = true)
    (h2 : nodupB (keys bx.children) = true) :
    nodupB (keys ((bx.setRel field (op (bx.rel field))).parents)) = true ∧
    nodupB (keys ((bx.setRel field (op (bx.rel field))).children)) = true := by
  cases field with
  | parents => exact ⟨hop _ h1, h2⟩
  | children => exact ⟨h1, hop _ h2⟩

theorem update_loop_wf (id : String) (original : JMap String Int) (field : Rel)
    (l : List (String × Int)) (s : St) (hw : wfSt s = true) :
    wfSt (update_loop id original field l s).1 = true := by
  induction l generalizing s with
  | nil => exact hw
  | cons e rest ih =>
    obtain ⟨rid, nc⟩ := e
    simp only [update_loop]
    apply ih
    by_cases h0 : nc = 0
    · simp only [if_pos h0]
      apply wfSt_modifyBox
      · apply wfSt_modifyBox hw
        exact setRel_op_nodup (fun m hm => nodupB_keys_jdel rid hm)
      · exact setRel_op_nodup (fun m hm => nodupB_keys_jdel id hm)
    · simp only [if_neg h0]
      apply wfSt_modifyBox
      · apply wfSt_modifyBox hw
        exact setRel_op_nodup (fun m hm => nodupB_keys_jset nc hm)
      · exact setRel_op_nodup (fun m hm => nodupB_keys_jset nc hm)

/-! Wrappers over `update` (which returns early on an empty changed map). -/

theorem update_origin {s : St} {id : String} {box : BoxSt}
    (original updated : JMap String Int) (field : Rel)
    (hbox : jget s.boxes id = some box) (hne : ∀ e ∈ updated, e.1 ≠ id) :
    jget (update s id original updated field).1.boxes id =
      some (box.setRel field (apply_batch (box.rel field) updated)) := by
  unfold update
  by_cases hemp : updated.isEmpty
  · simp only [if_pos hemp]
    have hu : updated = [] := List.isEmpty_iff.mp hemp
    subst hu
    simp [apply_batch, hbox, setRel_rel_self]
  · simp only [if_neg hemp]
    rw [update_loop_origin _ _ _ _ _ hne, hbox]
    rfl

theorem update_frame {s : St} {id : String}
    (original updated : JMap String Int) (field : Rel) {b : String}
    (hb : b ≠ id) (hbl : b ∉ updated.map Prod.fst) :
    jget (update s id original updated field).1.boxes b = jget s.boxes b := by
  unfold update
  by_cases hemp : updated.isEmpty
  · simp only [if_pos hemp]
  · simp only [if_neg hemp]
    exact update_loop_frame _ _ _ _ _ hb hbl

theorem update_mirror {s : St} {id : String}
    (original updated : JMap String Int) (field : Rel) {rid : String} {nc : Int}
    (hmem : (rid, nc) ∈ updated) (hnd : nodupB (updated.map Prod.fst) = true)
    (hne : ∀ e ∈ updated, e.1 ≠ id) :
    jget (update s id original updated field).1.boxes rid =
      (jget s.boxes rid).map (fun bx => bx.setRel field.other
        (if nc = 0 then jdel (bx.rel field.other) id
         else jset (bx.rel field.other) id nc)) := by
  unfold update
  by_cases hemp : updated.isEmpty
  · rw [List.isEmpty_iff.mp hemp] at hmem
    simp at hmem
  · simp only [if_neg hemp]
    exact update_loop_mirror _ _ _ _ _ hmem hnd hne

theorem update_svgs {s : St} {id : String}
    (original updated : JMap String Int) (field : Rel) (b : String) :
    (jget (update s id original updated field).1.boxes b).map BoxSt.svgs =
      (jget s.boxes b).map BoxSt.svgs := by
  unfold update
  by_cases hemp : updated.isEmpty
  · simp only [if_pos hemp]
  · simp only [if_neg hemp]
    exact update_loop_svgs _ _ _ _ _ b

theorem update_keys {s : St} {id : String}
    (original updated : JMap String Int) (field : Rel) :
    keys (update s id original updated field).1.boxes = keys s.boxes := by
  unfold update
  by_cases hemp : updated.isEmpty
  · simp only [if_pos hemp]
  · simp only [if_neg hemp]
    exact update_loop_keys _ _ _ _ _

theorem update_wf (s : St) (id : String)
    (original updated : JMap String Int) (field : Rel) (hw : wfSt s = true) :
    wfSt (update s id original updated field).1 = true := by
  unfold update
  by_cases hemp : updated.isEmpty
  · simp only [if_pos hemp]
    exact hw
  · simp only [if_neg hemp]
    exact update_loop_wf _ _ _ _ _ hw

theorem update_events {s : St} {id : String}
    (original updated : JMap String Int) (field : Rel) :
    (update s id original updated field).2 =
      updated.map (fun e =>
        (⟨e.1, field.other, [(id, e.2 - (jget original e.1).getD 0)]⟩ : RelEvent)) ++
      (if updated.isEmpty then []
       else [⟨id, field, updated.map
          (fun e => (e.1, e.2 - (jget original e.1).getD 0))⟩]) := by
  unfold update
  by_cases hemp : updated.isEmpty
  · simp only [if_pos hemp]
    rw [List.isEmpty_iff.mp hemp]
    simp
  · simp only [if_neg hemp]
    rw [update_loop_events]

theorem update_relAt_origin_field {s : St} {id : String} {box : BoxSt}
    (original updated : JMap String Int) (field : Rel)
    (hwf : wfSt s = true) (hbox : jget s.boxes id = some box)
    (hnd : nodupB (updated.map Prod.fst) = true)
    (hne : ∀ e ∈ updated, e.1 ≠ id) (b : String) :
    relAt (update s id original updated field).1 field id b =
      (match jget updated b with
       | some n => if n = 0 then none else some n
       | none => relAt s field id b) := by
  have h1 := update_origin original updated field hbox hne
  have h2 : relAt (update s id original updated field).1 field id b =
      jget ((box.setRel field (apply_batch (box.rel field) updated)).rel field) b := by
    unfold relAt
    rw [h1]
  rw [h2, rel_setRel_self]
  cases hq : jget updated b with
  | some n =>
    exact apply_batch_jget_mem (wfSt_rel field hwf hbox) hnd (mem_of_jget_eq_some hq)
  | none =>
    rw [apply_batch_jget_not_mem (not_mem_of_jget_eq_none hq)]
    unfold relAt
    rw [hbox]

theorem update_relAt_origin_other {s : St} {id : String} {box : BoxSt}
    (original updated : JMap String Int) (field : Rel)
    (hbox : jget s.boxes id = some box)
    (hne : ∀ e ∈ updated, e.1 ≠ id) (b : String) :
    relAt (update s id original updated field).1 field.other id b =
      relAt s field.other id b := by
  have h1 := update_origin original updated field hbox hne
  have h2 : relAt (update s id original updated field).1 field.other id b =
      jget ((box.setRel field (apply_batch (box.rel field) updated)).rel field.other) b := by
    unfold relAt
    rw [h1]
  rw [h2, rel_setRel_other _ _ (Rel.other_ne field)]
  unfold relAt
  rw [hbox]

theorem update_relAt_mirror {s : St} {id : String}
    (original updated : JMap String Int) (field : Rel) {a : String}
    (hwf : wfSt s = true)
    (hnd : nodupB (updated.map Prod.fst) = true)
    (hne : ∀ e ∈ updated, e.1 ≠ id)
    (hreg : ∀ e ∈ updated, (jget s.boxes e.1).isSome)
    (ha : a ≠ id) (b : String) :
    relAt (update s id original updated field).1 field.other a b =
      (match jget updated a with
       | some n =>
         if b = id then (if n = 0 then none else some n)
         else relAt s field.other a b
       | none => relAt s field.other a b) := by
  cases hq : jget updated a with
  | none =>
    have hfr := update_frame (s := s) original updated field ha
      (not_mem_of_jget_eq_none hq)
    unfold relAt
    rw [hfr]
  | some n =>
    have hmem := mem_of_jget_eq_some hq
    have hm := update_mirror (s := s) original updated field hmem hnd hne
    cases hs : jget s.boxes a with
    | none =>
      have := hreg (a, n) hmem
      rw [hs] at this
      simp at this
    | some bx =>
      have h2 : relAt (update s id original updated field).1 field.other a b =
          jget ((bx.setRel field.other
            (if n = 0 then jdel (bx.rel field.other) id
             else jset (bx.rel field.other) id n)).rel field.other) b := by
        unfold relAt
        rw [hm, hs]
        rfl
      rw [h2, rel_setRel_self]
      by_cases hb : b = id
      · subst hb
        simp only [if_pos rfl]
        by_cases h0 : n = 0
        · simp only [if_pos h0]
          exact jget_jdel_self _ (wfSt_rel _ hwf hs)
        · simp only [if_neg h0]
          exact jget_jset_self _ _ _
      · simp only [if_neg hb]
        have hrel : relAt s field.other a b = jget (bx.rel field.other) b := by
          unfold relAt
          rw [hs]
        rw [hrel]
        by_cases h0 : n = 0
        · simp only [if_pos h0]
          exact jget_jdel_ne _ hb
        · simp only [if_neg h0]
          exact jget_jset_ne _ _ hb

theorem update_relAt_mirror_samefield {s : St} {id : String}
    (original updated : JMap String Int) (field : Rel) {a : String}
    (hnd : nodupB (updated.map Prod.fst) = true)
    (hne : ∀ e ∈ updated, e.1 ≠ id)
    (ha : a ≠ id) (b : String) :
    relAt (update s id original updated field).1 field a b =
      relAt s field a b := by
  cases hq : jget updated a with
  | none =>
    have hfr := update_frame (s := s) original updated field ha
      (not_mem_of_jget_eq_none hq)
    unfold relAt
    rw [hfr]
  | some n =>
    have hmem := mem_of_jget_eq_some hq
    have hm := update_mirror (s := s) original updated field hmem hnd hne
    cases hs : jget s.boxes a with
    | none =>
      unfold relAt
      rw [hm, hs]
      rfl
    | some bx =>
      have h2 : relAt (update s id original updated field).1 field a b =
          jget ((bx.setRel field.other
            (if n = 0 then jdel (bx.rel field.other) id
             else jset (bx.rel field.other) id n)).rel field) b := by
        unfold relAt
        rw [hm, hs]
        rfl
      rw [h2, rel_setRel_other _ _ (Ne.symm (Rel.other_ne field))]
      unfold relAt
      rw [hs]

/-! ## Claim C6 — propagator delta semantics -/

/-- Claim C6: for each changed relative, the update writes the new count
into the origin relation map and into the mirrored map of the relative
(deleting both entries when the new count is zero), both through the
store's `set_property`; the deltas handed to the listeners — one mirrored
event per relative, then one event on the origin relation with the full
delta map — equal `newCount - previousCount`, the previous count
defaulting to 0 when absent. -/
theorem update_delta_semantics (s : St) (id : String) (box : BoxSt)
    (original updated : JMap String Int) (field : Rel)
    (hwf : wfSt s = true) (hbox : jget s.boxes id = some box)
    (hnd : nodupB (updated.map Prod.fst) = true)
    (hne : ∀ e ∈ updated, e.1 ≠ id)
    (hreg : ∀ e ∈ updated, (jget s.boxes e.1).isSome) :
    ((update s id original updated field).2 =
      updated.map (fun e =>
        (⟨e.1, field.other, [(id, e.2 - (jget original e.1).getD 0)]⟩ : RelEvent)) ++
      (if updated.isEmpty then []
       else [⟨id, field,
         updated.map (fun e => (e.1, e.2 - (jget original e.1).getD 0))⟩])) ∧
    (∀ rid nc, (rid, nc) ∈ updated →
      relAt (update s id original updated field).1 field id rid =
        (if nc = 0 then none else some nc) ∧
      relAt (update s id original updated field).1 field.other rid id =
        (if nc = 0 then none else some nc)) := by
  refine ⟨update_events original updated field, ?_⟩
  intro rid nc hmem
  have hq : jget updated rid = some nc := jget_of_mem hnd hmem
  have hne2 : rid ≠ id := hne (rid, nc) hmem
  constructor
  · rw [update_relAt_origin_field original updated field hwf hbox hnd hne rid, hq]
  · rw [update_relAt_mirror original updated field hwf hnd hne hreg hne2 id, hq]
    simp

/-- Witness for C6 on the two-box example: making `m` a child of `fall`
with count 1 fires the mirrored parents event on `m` and the children
event on `fall`, both with delta 1, and stores 1 on both sides. -/
theorem update_delta_semantics_witness :
    (update exSt ("fall") [] [(("m"), 1)] Rel.children).2 =
      [⟨("m"), Rel.parents, [(("fall"), 1)]⟩,
       ⟨("fall"), Rel.children, [(("m"), 1)]⟩] ∧
    relAt (update exSt ("fall") [] [(("m"), 1)] Rel.children).1
      Rel.children ("fall") ("m") = some 1 ∧
    relAt (update exSt ("fall") [] [(("m"), 1)] Rel.children).1
      Rel.parents ("m") ("fall") = some 1 := by
  have h := update_delta_semantics exSt ("fall") exFall [] [(("m"), 1)] Rel.children
    (by decide) (by decide) (by decide) (by decide) (by decide)
  have hm := h.2 ("m") 1 (by decide)
  refine ⟨?_, ?_, ?_⟩
  · rw [h.1]
    decide
  · simpa using hm.1
  · simpa using hm.2

/-! ## Claim C2 — idempotence of containment recomputation -/

theorem parent_count_congr {b1 b2 c1 c2 : BoxSt}
    (hb : b1.svgs = b2.svgs) (hc : c1.svgs = c2.svgs) :
    parent_count b1 c1 = parent_count b2 c2 := by
  unfold parent_count
  rw [hb, hc]

theorem child_count_congr {b1 b2 c1 c2 : BoxSt}
    (hb : b1.svgs = b2.svgs) (hc : c1.svgs = c2.svgs) :
    child_count b1 c1 = child_count b2 c2 := by
  unfold child_count
  rw [hb, hc]

/-- When no stored count differs from the recomputed one, the resolver
emits two empty changed maps. -/
theorem resolve_empty {box : BoxSt} {id : String} {bs : List (String × BoxSt)}
    (h : ∀ e ∈ bs, e.1 ≠ id →
      (jget box.parents e.1).getD 0 = parent_count box e.2 ∧
      (jget box.children e.1).getD 0 = child_count box e.2) :
    resolve box id bs = ([], []) := by
  induction bs with
  | nil => rfl
  | cons e rest ih =>
    obtain ⟨a, ab⟩ := e
    have ihr := ih (fun e he => h e (List.mem_cons_of_mem _ he))
    simp only [resolve, ihr]
    by_cases hid : a = id
    · simp [hid]
    · have ha := h (a, ab) (List.mem_cons_self _ _) hid
      simp [ha.1, ha.2]

/-- Claim C2: recomputing containment twice with no geometry change in
between yields an empty delta the second time — the second call's
resolver produces empty changed-parents and changed-children maps, the
registry is untouched, and no relation listener fires. -/
theorem recalc_idempotent (s : St) (id : String)
    (hwf : wfSt s = true) (p : St × List RelEvent)
    (h : recalculate_containment s id = some p) :
    (∃ box2, jget p.1.boxes id = some box2 ∧
      resolve box2 id p.1.boxes = ([], [])) ∧
    recalculate_containment p.1 id = some (p.1, []) := by
  rcases hb : jget s.boxes id with _ | box
  · unfold recalculate_containment at h
    rw [hb] at h
    exact absurd h (by simp)
  · unfold recalculate_containment at h
    rw [hb] at h
    have hinj := Option.some.inj h
    have hndb : nodupB (keys s.boxes) = true := wfSt_boxes_nodup hwf
    -- facts about the changed maps
    have hne_p : ∀ e ∈ (resolve box id s.boxes).1, e.1 ≠ id := by
      intro e he
      obtain ⟨a, n⟩ := e
      obtain ⟨cand, _, hne, _, _⟩ := resolve_parents_mem he
      exact hne
    have hne_c : ∀ e ∈ (resolve box id s.boxes).2, e.1 ≠ id := by
      intro e he
      obtain ⟨a, n⟩ := e
      obtain ⟨cand, _, hne, _, _⟩ := resolve_children_mem he
      exact hne
    have hnd_p : nodupB ((resolve box id s.boxes).1.map Prod.fst) = true :=
      keys_resolve_parents_nodup hndb
    have hnd_c : nodupB ((resolve box id s.boxes).2.map Prod.fst) = true :=
      keys_resolve_children_nodup hndb
    -- the state after the first call
    have hbox1 := update_origin (s := s) box.parents (resolve box id s.boxes).1
      Rel.parents hb hne_p
    have hwf1 := update_wf s id box.parents (resolve box id s.boxes).1
      Rel.parents hwf
    have hbox2 := update_origin
      (s := (update s id box.parents (resolve box id s.boxes).1 Rel.parents).1)
      box.children (resolve box id s.boxes).2 Rel.children hbox1 hne_c
    have hwf2 := update_wf
      (update s id box.parents (resolve box id s.boxes).1 Rel.parents).1
      id box.children (resolve box id s.boxes).2 Rel.children hwf1
    have hp1 : p.1 =
        (update (update s id box.parents (resolve box id s.boxes).1 Rel.parents).1
          id box.children (resolve box id s.boxes).2 Rel.children).1 := by
      rw [← hinj]
    -- the registry entry of the origin after both phases
    rw [← hp1] at hbox2 hwf2
    have hbp : ((box.setRel Rel.parents
        (apply_batch (box.rel Rel.parents) (resolve box id s.boxes).1)).setRel
          Rel.children (apply_batch
            ((box.setRel Rel.parents
              (apply_batch (box.rel Rel.parents) (resolve box id s.boxes).1)).rel
                Rel.children) (resolve box id s.boxes).2)).parents =
        apply_batch box.parents (resolve box id s.boxes).1 := rfl
    have hbc : ((box.setRel Rel.parents
        (apply_batch (box.rel Rel.parents) (resolve box id s.boxes).1)).setRel
          Rel.children (apply_batch
            ((box.setRel Rel.parents
              (apply_batch (box.rel Rel.parents) (resolve box id s.boxes).1)).rel
                Rel.children) (resolve box id s.boxes).2)).children =
        apply_batch box.children (resolve box id s.boxes).2 := rfl
    -- geometry is untouched
    have hsvgs : ∀ b, (jget p.1.boxes b).map BoxSt.svgs =
        (jget s.boxes b).map BoxSt.svgs := by
      intro b
      rw [hp1]
      rw [update_svgs, update_svgs]
    -- every candidate's stored count now matches the recomputed one
    set box2 := (box.setRel Rel.parents
        (apply_batch (box.rel Rel.parents) (resolve box id s.boxes).1)).setRel
          Rel.children (apply_batch
            ((box.setRel Rel.parents
              (apply_batch (box.rel Rel.parents) (resolve box id s.boxes).1)).rel
                Rel.children) (resolve box id s.boxes).2) with hbox2def
    have hbox2svgs : box2.svgs = box.svgs := rfl
    have hmatch : ∀ e ∈ p.1.boxes, e.1 ≠ id →
        (jget box2.parents e.1).getD 0 = parent_count box2 e.2 ∧
        (jget box2.children e.1).getD 0 = child_count box2 e.2 := by
      intro e he hne
      obtain ⟨cid, cand2⟩ := e
      dsimp only at hne ⊢
      have hq2 : jget p.1.boxes cid = some cand2 :=
        jget_of_mem (wfSt_boxes_nodup hwf2) he
      have hsv := hsvgs cid
      rw [hq2] at hsv
      rcases hq : jget s.boxes cid with _ | cand
      · rw [hq] at hsv
        simp at hsv
      · rw [hq] at hsv
        simp only [Option.map_some'] at hsv
        have hcsvgs : cand2.svgs = cand.svgs := Option.some.inj hsv
        have hpcc : parent_count box2 cand2 = parent_count box cand :=
          parent_count_congr hbox2svgs hcsvgs
        have hccc : child_count box2 cand2 = child_count box cand :=
          child_count_congr hbox2svgs hcsvgs
        have hrp := jget_resolve_parents box hndb hq hne
        have hrc := jget_resolve_children box hndb hq hne
        constructor
        · rw [hbp, hpcc]
          rcases hnp : jget (resolve box id s.boxes).1 cid with _ | n
          · rw [apply_batch_jget_not_mem (not_mem_of_jget_eq_none hnp)]
            rw [hnp] at hrp
            by_cases hcond : (jget box.parents cid).getD 0 = parent_count box cand
            · exact hcond
            · rw [if_neg hcond] at hrp
              exact absurd hrp (by simp)
          · have hndm : nodupB (keys box.parents) = true := wfSt_rel Rel.parents hwf hb
            rw [apply_batch_jget_mem hndm hnd_p (mem_of_jget_eq_some hnp)]
            rw [hnp] at hrp
            by_cases hcond : (jget box.parents cid).getD 0 = parent_count box cand
            · rw [if_pos hcond] at hrp
              exact absurd hrp (by simp)
            · rw [if_neg hcond] at hrp
              have hn : n = parent_count box cand := Option.some.inj hrp
              rw [← hn]
              by_cases h0 : n = 0
              · simp [h0]
              · simp [h0]
        · rw [hbc, hccc]
          rcases hnc : jget (resolve box id s.boxes).2 cid with _ | n
          · rw [apply_batch_jget_not_mem (not_mem_of_jget_eq_none hnc)]
            rw [hnc] at hrc
            by_cases hcond : (jget box.children cid).getD 0 = child_count box cand
            · exact hcond
            · rw [if_neg hcond] at hrc
              exact absurd hrc (by simp)
          · have hndm : nodupB (keys box.children) = true := wfSt_rel Rel.children hwf hb
            rw [apply_batch_jget_mem hndm hnd_c (mem_of_jget_eq_some hnc)]
            rw [hnc] at hrc
            by_cases hcond : (jget box.children cid).getD 0 = child_count box cand
            · rw [if_pos hcond] at hrc
              exact absurd hrc (by simp)
            · rw [if_neg hcond] at hrc
              have hn : n = child_count box cand := Option.some.inj hrc
              rw [← hn]
              by_cases h0 : n = 0
              · simp [h0]
              · simp [h0]
    have hres : resolve box2 id p.1.boxes = ([], []) := resolve_empty hmatch
    refine ⟨⟨box2, hbox2, hres⟩, ?_⟩
    unfold recalculate_containment
    rw [hbox2]
    simp only [hres]
    simp [update]

/-- Witness for C2 on the two-box example. -/
theorem recalc_idempotent_witness :
    wfSt exSt = true ∧
    recalculate_containment exSt ("fall") = some (exSt2, exEvs) ∧
    recalculate_containment exSt2 ("fall") = some (exSt2, []) := by
  have h := recalc_idempotent exSt ("fall") (by decide) (exSt2, exEvs) (by decide)
  exact ⟨by decide, by decide, h.2⟩

/-! ## Claim C1 — symmetry of the derived relation -/

theorem isSome_jget_iff_mem_keys {α β : Type} [DecidableEq α]
    {m : JMap α β} {k : α} : (jget m k).isSome = true ↔ k ∈ keys m := by
  constructor
  · intro h
    rcases hq : jget m k with _ | v
    · rw [hq] at h
      simp at h
    · exact mem_keys_of_jget_eq_some hq
  · intro h
    rcases hq : jget m k with _ | v
    · exact absurd (not_mem_of_jget_eq_none hq) (by simpa using h)
    · rfl

theorem symOK_children_clause {s : St} (h : symOK s = true)
    {a : String} {A : BoxSt} {b : String} {n : Int}
    (ha : jget s.boxes a = some A) (hcb : jget A.children b = some n) :
    n ≠ 0 ∧ ∃ B, jget s.boxes b = some B ∧ jget B.parents a = some n := by
  unfold symOK at h
  rw [List.all_eq_true] at h
  have h2 := h (a, A) (mem_of_jget_eq_some ha)
  simp only [Bool.and_eq_true] at h2
  have h3 := List.all_eq_true.mp h2.1 (b, n) (mem_of_jget_eq_some hcb)
  simp only [Bool.and_eq_true, decide_eq_true_eq] at h3
  refine ⟨h3.1, ?_⟩
  rcases hB : jget s.boxes b with _ | B
  · rw [hB] at h3
    simp at h3
  · rw [hB] at h3
    exact ⟨B, rfl, by simpa using h3.2⟩

theorem symOK_parents_clause {s : St} (h : symOK s = true)
    {b : String} {B : BoxSt} {a : String} {m : Int}
    (hb : jget s.boxes b = some B) (hpa : jget B.parents a = some m) :
    m ≠ 0 ∧ ∃ A, jget s.boxes a = some A ∧ jget A.children b = some m := by
  unfold symOK at h
  rw [List.all_eq_true] at h
  have h2 := h (b, B) (mem_of_jget_eq_some hb)
  simp only [Bool.and_eq_true] at h2
  have h3 := List.all_eq_true.mp h2.2 (a, m) (mem_of_jget_eq_some hpa)
  simp only [Bool.and_eq_true, decide_eq_true_eq] at h3
  refine ⟨h3.1, ?_⟩
  rcases hA : jget s.boxes a with _ | A
  · rw [hA] at h3
    simp at h3
  · rw [hA] at h3
    exact ⟨A, rfl, by simpa using h3.2⟩

theorem symOK_props {s : St} (h : symOK s = true) :
    (∀ a b, relAt s Rel.children a b = relAt s Rel.parents b a) ∧
    (∀ f a b n, relAt s f a b = some n → n ≠ 0) ∧
    (∀ f a b, (relAt s f a b).isSome = true → (jget s.boxes b).isSome = true) := by
  refine ⟨?_, ?_, ?_⟩
  · intro a b
    rcases ha : jget s.boxes a with _ | A
    · rcases hB : jget s.boxes b with _ | B
      · simp [relAt, ha, hB]
      · rcases hpa : jget B.parents a with _ | m
        · simp [relAt, BoxSt.rel, ha, hB, hpa]
        · obtain ⟨_, A', hA', _⟩ := symOK_parents_clause h hB hpa
          rw [ha] at hA'
          cases hA'
    · rcases hcb : jget A.children b with _ | n
      · rcases hB : jget s.boxes b with _ | B
        · simp [relAt, BoxSt.rel, ha, hB, hcb]
        · rcases hpa : jget B.parents a with _ | m
          · simp [relAt, BoxSt.rel, ha, hB, hcb, hpa]
          · obtain ⟨_, A', hA', hmir⟩ := symOK_parents_clause h hB hpa
            rw [ha] at hA'
            injection hA' with hA'
            subst hA'
            rw [hcb] at hmir
            cases hmir
      · obtain ⟨hn, B, hB, hmir⟩ := symOK_children_clause h ha hcb
        simp [relAt, BoxSt.rel, ha, hB, hcb, hmir]
  · intro f a b n hrel
    unfold relAt at hrel
    rcases ha : jget s.boxes a with _ | A
    · rw [ha] at hrel
      simp at hrel
    · rw [ha] at hrel
      have hrel2 : jget (A.rel f) b = some n := hrel
      cases f with
      | parents => exact (symOK_parents_clause h ha hrel2).1
      | children => exact (symOK_children_clause h ha hrel2).1
  · intro f a b hrel
    unfold relAt at hrel
    rcases ha : jget s.boxes a with _ | A
    · rw [ha] at hrel
      simp at hrel
    · rw [ha] at hrel
      have hrel2 : (jget (A.rel f) b).isSome = true := hrel
      rcases hq : jget (A.rel f) b with _ | nn
      · rw [hq] at hrel2
        simp at hrel2
      · cases f with
        | parents =>
          obtain ⟨_, B, hB, _⟩ := symOK_parents_clause h ha hq
          rw [hB]
          rfl
        | children =>
          obtain ⟨_, B, hB, _⟩ := symOK_children_clause h ha hq
          rw [hB]
          rfl

theorem symOK_of (s : St) (hwf : wfSt s = true)
    (hsym : ∀ a b, relAt s Rel.children a b = relAt s Rel.parents b a)
    (hpos : ∀ f a b n, relAt s f a b = some n → n ≠ 0)
    (hclosed : ∀ f a b, (relAt s f a b).isSome = true →
      (jget s.boxes b).isSome = true) :
    symOK s = true := by
  unfold symOK
  rw [List.all_eq_true]
  intro e he
  obtain ⟨a, A⟩ := e
  have ha : jget s.boxes a = some A := jget_of_mem (wfSt_boxes_nodup hwf) he
  simp only [Bool.and_eq_true]
  constructor
  · rw [List.all_eq_true]
    intro c hc
    obtain ⟨b, n⟩ := c
    have hcb : jget A.children b = some n :=
      jget_of_mem (wfSt_rel Rel.children hwf ha) hc
    have hrel : relAt s Rel.children a b = some n := by
      unfold relAt
      rw [ha]
      exact hcb
    have hb : (jget s.boxes b).isSome = true :=
      hclosed Rel.children a b (by rw [hrel]; rfl)
    rcases hB : jget s.boxes b with _ | B
    · rw [hB] at hb
      simp at hb
    · have hmirror : jget B.parents a = some n := by
        have hs := hsym a b
        rw [hrel] at hs
        unfold relAt at hs
        rw [hB] at hs
        exact hs.symm
      simp only [Bool.and_eq_true, decide_eq_true_eq]
      refine ⟨hpos Rel.children a b n hrel, ?_⟩
      simpa using hmirror
  · rw [List.all_eq_true]
    intro c hc
    obtain ⟨b, n⟩ := c
    have hpb : jget A.parents b = some n :=
      jget_of_mem (wfSt_rel Rel.parents hwf ha) hc
    have hrel : relAt s Rel.parents a b = some n := by
      unfold relAt
      rw [ha]
      exact hpb
    have hb : (jget s.boxes b).isSome = true :=
      hclosed Rel.parents a b (by rw [hrel]; rfl)
    rcases hB : jget s.boxes b with _ | B
    · rw [hB] at hb
      simp at hb
    · have hmirror : jget B.children a = some n := by
        have hs := hsym b a
        rw [hrel] at hs
        unfold relAt at hs
        rw [hB] at hs
        exact hs
      simp only [Bool.and_eq_true, decide_eq_true_eq]
      refine ⟨hpos Rel.parents a b n hrel, ?_⟩
      simpa using hmirror

theorem recalc_state (s : St) (id : String) (box : BoxSt)
    (hb : jget s.boxes id = some box) {p : St × List RelEvent}
    (h : recalculate_containment s id = some p) :
    p.1 = (update (update s id box.parents (resolve box id s.boxes).1 Rel.parents).1
      id box.children (resolve box id s.boxes).2 Rel.children).1 := by
  unfold recalculate_containment at h
  rw [hb] at h
  have hinj := Option.some.inj h
  rw [← hinj]

theorem resolve_parents_facts (s : St) (id : String) (box : BoxSt)
    (hwf : wfSt s = true) :
    (∀ e ∈ (resolve box id s.boxes).1, e.1 ≠ id) ∧
    nodupB ((resolve box id s.boxes).1.map Prod.fst) = true ∧
    (∀ e ∈ (resolve box id s.boxes).1, (jget s.boxes e.1).isSome = true) := by
  refine ⟨?_, keys_resolve_parents_nodup (wfSt_boxes_nodup hwf), ?_⟩
  · intro e he
    obtain ⟨a, n⟩ := e
    obtain ⟨cand, _, hne, _, _⟩ := resolve_parents_mem he
    exact hne
  · intro e he
    obtain ⟨a, n⟩ := e
    obtain ⟨cand, hmem, _, _, _⟩ := resolve_parents_mem he
    rw [jget_of_mem (wfSt_boxes_nodup hwf) hmem]
    rfl

theorem resolve_children_facts (s : St) (id : String) (box : BoxSt)
    (hwf : wfSt s = true) :
    (∀ e ∈ (resolve box id s.boxes).2, e.1 ≠ id) ∧
    nodupB ((resolve box id s.boxes).2.map Prod.fst) = true ∧
    (∀ e ∈ (resolve box id s.boxes).2, (jget s.boxes e.1).isSome = true) := by
  refine ⟨?_, keys_resolve_children_nodup (wfSt_boxes_nodup hwf), ?_⟩
  · intro e he
    obtain ⟨a, n⟩ := e
    obtain ⟨cand, _, hne, _, _⟩ := resolve_children_mem he
    exact hne
  · intro e he
    obtain ⟨a, n⟩ := e
    obtain ⟨cand, hmem, _, _, _⟩ := resolve_children_mem he
    rw [jget_of_mem (wfSt_boxes_nodup hwf) hmem]
    rfl

/-- The `children` relation after `recalculate_containment`, pointwise:
the origin's map follows the changed-children map, every changed
relative's map gains or loses the mirrored entry for the origin, and
everything else is untouched. -/
theorem recalc_relAt_children (s : St) (id : String) (box : BoxSt)
    (hwf : wfSt s = true) (hb : jget s.boxes id = some box)
    {p : St × List RelEvent} (h : recalculate_containment s id = some p)
    (a b : String) :
    relAt p.1 Rel.children a b =
      (if a = id then
        (match jget (resolve box id s.boxes).2 b with
         | some n => if n = 0 then none else some n
         | none => relAt s Rel.children id b)
       else
        (match jget (resolve box id s.boxes).1 a with
         | some n =>
           if b = id then (if n = 0 then none else some n)
           else relAt s Rel.children a b
         | none => relAt s Rel.children a b)) := by
  obtain ⟨hne_p, hnd_p, hreg_p⟩ := resolve_parents_facts s id box hwf
  obtain ⟨hne_c, hnd_c, hreg_c⟩ := resolve_children_facts s id box hwf
  have hp1 := recalc_state s id box hb h
  have hbox1 := update_origin (s := s) box.parents (resolve box id s.boxes).1
    Rel.parents hb hne_p
  have hwf1 := update_wf s id box.parents (resolve box id s.boxes).1
    Rel.parents hwf
  by_cases haid : a = id
  · simp only [if_pos haid]
    rw [haid]
    have h2 : relAt p.1 Rel.children id b =
        (match jget (resolve box id s.boxes).2 b with
         | some n => if n = 0 then none else some n
         | none => relAt (update s id box.parents (resolve box id s.boxes).1
             Rel.parents).1 Rel.children id b) := by
      rw [hp1]
      exact update_relAt_origin_field box.children (resolve box id s.boxes).2
        Rel.children hwf1 hbox1 hnd_c hne_c b
    rw [h2]
    have h3 : relAt (update s id box.parents (resolve box id s.boxes).1
        Rel.parents).1 Rel.children id b = relAt s Rel.children id b :=
      update_relAt_origin_other box.parents (resolve box id s.boxes).1
        Rel.parents hb hne_p b
    rw [h3]
  · simp only [if_neg haid]
    have h2 : relAt p.1 Rel.children a b =
        relAt (update s id box.parents (resolve box id s.boxes).1
          Rel.parents).1 Rel.children a b := by
      rw [hp1]
      exact update_relAt_mirror_samefield box.children (resolve box id s.boxes).2
        Rel.children hnd_c hne_c haid b
    rw [h2]
    exact update_relAt_mirror box.parents (resolve box id s.boxes).1
      Rel.parents hwf hnd_p hne_p hreg_p haid b

/-- The `parents` relation after `recalculate_containment`, pointwise. -/
theorem recalc_relAt_parents (s : St) (id : String) (box : BoxSt)
    (hwf : wfSt s = true) (hb : jget s.boxes id = some box)
    {p : St × List RelEvent} (h : recalculate_containment s id = some p)
    (a b : String) :
    relAt p.1 Rel.parents a b =
      (if a = id then
        (match jget (resolve box id s.boxes).1 b with
         | some n => if n = 0 then none else some n
         | none => relAt s Rel.parents id b)
       else
        (match jget (resolve box id s.boxes).2 a with
         | some n =>
           if b = id then (if n = 0 then none else some n)
           else relAt s Rel.parents a b
         | none => relAt s Rel.parents a b)) := by
  obtain ⟨hne_p, hnd_p, hreg_p⟩ := resolve_parents_facts s id box hwf
  obtain ⟨hne_c, hnd_c, hreg_c⟩ := resolve_children_facts s id box hwf
  have hp1 := recalc_state s id box hb h
  have hbox1 := update_origin (s := s) box.parents (resolve box id s.boxes).1
    Rel.parents hb hne_p
  have hwf1 := update_wf s id box.parents (resolve box id s.boxes).1
    Rel.parents hwf
  have hkeys1 : keys (update s id box.parents (resolve box id s.boxes).1
      Rel.parents).1.boxes = keys s.boxes := update_keys _ _ _
  have hreg_c1 : ∀ e ∈ (resolve box id s.boxes).2,
      (jget (update s id box.parents (resolve box id s.boxes).1
        Rel.parents).1.boxes e.1).isSome = true := by
    intro e he
    rw [isSome_jget_iff_mem_keys, hkeys1, ← isSome_jget_iff_mem_keys]
    exact hreg_c e he
  by_cases haid : a = id
  · simp only [if_pos haid]
    rw [haid]
    have h2 : relAt p.1 Rel.parents id b =
        relAt (update s id box.parents (resolve box id s.boxes).1
          Rel.parents).1 Rel.parents id b := by
      rw [hp1]
      exact update_relAt_origin_other box.children (resolve box id s.boxes).2
        Rel.children hbox1 hne_c b
    rw [h2]
    exact update_relAt_origin_field box.parents (resolve box id s.boxes).1
      Rel.parents hwf hb hnd_p hne_p b
  · simp only [if_neg haid]
    have h2 : relAt p.1 Rel.parents a b =
        (match jget (resolve box id s.boxes).2 a with
         | some n =>
           if b = id then (if n = 0 then none else some n)
           else relAt (update s id box.parents (resolve box id s.boxes).1
             Rel.parents).1 Rel.parents a b
         | none => relAt (update s id box.parents (resolve box id s.boxes).1
             Rel.parents).1 Rel.parents a b) := by
      rw [hp1]
      exact update_relAt_mirror box.children (resolve box id s.boxes).2
        Rel.children hwf1 hnd_c hne_c hreg_c1 haid b
    rw [h2]
    have h3 : relAt (update s id box.parents (resolve box id s.boxes).1
        Rel.parents).1 Rel.parents a b = relAt s Rel.parents a b :=
      update_relAt_mirror_samefield box.parents (resolve box id s.boxes).1
        Rel.parents hnd_p hne_p haid b
    rw [h3]

theorem opt_if_val_ne_zero {m n : Int}
    (h : (if m = 0 then (none : Option Int) else some m) = some n) : n ≠ 0 := by
  by_cases h0 : m = 0
  · rw [if_pos h0] at h
    cases h
  · rw [if_neg h0] at h
    have hmn := Option.some.inj h
    intro hn
    exact h0 (hmn.trans hn)

/-- Claim C1: `recalculate_containment` preserves the symmetry invariant —
in any settled well-formed state where every stored relation entry is
nonzero and mirrored (`A.children.get(B) == B.parents.get(A)`, absent on
both sides when zero), the state after a `recalculate_containment` call
and its listener notifications satisfies the same invariant. -/
theorem recalc_preserves_symmetry (s : St) (id : String)
    (hwf : wfSt s = true) (hsym : symOK s = true)
    (p : St × List RelEvent) (h : recalculate_containment s id = some p) :
    wfSt p.1 = true ∧ symOK p.1 = true := by
  rcases hb : jget s.boxes id with _ | box
  · unfold recalculate_containment at h
    rw [hb] at h
    exact absurd h (by simp)
  obtain ⟨hsymP, hpos, hclosed⟩ := symOK_props hsym
  obtain ⟨hne_p, hnd_p, hreg_p⟩ := resolve_parents_facts s id box hwf
  obtain ⟨hne_c, hnd_c, hreg_c⟩ := resolve_children_facts s id box hwf
  have hp1 := recalc_state s id box hb h
  have hwf1 := update_wf s id box.parents (resolve box id s.boxes).1
    Rel.parents hwf
  have hwfp : wfSt p.1 = true := by
    rw [hp1]
    exact update_wf _ _ box.children (resolve box id s.boxes).2 Rel.children hwf1
  have hkeys : keys p.1.boxes = keys s.boxes := by
    rw [hp1, update_keys, update_keys]
  have htrans : ∀ x, (jget p.1.boxes x).isSome = true ↔
      (jget s.boxes x).isSome = true := by
    intro x
    rw [isSome_jget_iff_mem_keys, hkeys, isSome_jget_iff_mem_keys]
  have hch := recalc_relAt_children s id box hwf hb h
  have hpar := recalc_relAt_parents s id box hwf hb h
  refine ⟨hwfp, symOK_of p.1 hwfp ?_ ?_ ?_⟩
  · intro a b
    rw [hch a b, hpar b a]
    by_cases haid : a = id
    · by_cases hbid : b = id
      · rw [if_pos haid, if_pos hbid, haid, hbid]
        simp only [jget_resolve_children_none (Or.inl rfl),
          jget_resolve_parents_none (Or.inl rfl)]
        exact hsymP id id
      · rw [if_pos haid, if_neg hbid, haid]
        rcases hq : jget (resolve box id s.boxes).2 b with _ | n
        · simp only [hq]
          exact hsymP id b
        · simp only [hq]
          simp
    · rw [if_neg haid]
      by_cases hbid : b = id
      · rw [if_pos hbid, hbid]
        rcases hq : jget (resolve box id s.boxes).1 a with _ | n
        · simp only [hq]
          exact hsymP a id
        · simp only [hq]
          simp
      · rw [if_neg hbid]
        rcases hq1 : jget (resolve box id s.boxes).1 a with _ | n
        · rcases hq2 : jget (resolve box id s.boxes).2 b with _ | m
          · simp only [hq1, hq2]
            exact hsymP a b
          · simp only [hq1, hq2, if_neg haid]
            exact hsymP a b
        · rcases hq2 : jget (resolve box id s.boxes).2 b with _ | m
          · simp only [hq1, hq2, if_neg hbid]
            exact hsymP a b
          · simp only [hq1, hq2, if_neg haid, if_neg hbid]
            exact hsymP a b
  · intro f a b n hrel
    cases f with
    | children =>
      rw [hch a b] at hrel
      by_cases haid : a = id
      · rw [if_pos haid] at hrel
        rcases hq : jget (resolve box id s.boxes).2 b with _ | m
        · rw [hq] at hrel
          exact hpos Rel.children id b n hrel
        · rw [hq] at hrel
          exact opt_if_val_ne_zero hrel
      · rw [if_neg haid] at hrel
        rcases hq : jget (resolve box id s.boxes).1 a with _ | m
        · rw [hq] at hrel
          exact hpos Rel.children a b n hrel
        · rw [hq] at hrel
          have hrel2 : (if b = id then (if m = 0 then none else some m)
              else relAt s Rel.children a b) = some n := hrel
          by_cases hbid : b = id
          · rw [if_pos hbid] at hrel2
            exact opt_if_val_ne_zero hrel2
          · rw [if_neg hbid] at hrel2
            exact hpos Rel.children a b n hrel2
    | parents =>
      rw [hpar a b] at hrel
      by_cases haid : a = id
      · rw [if_pos haid] at hrel
        rcases hq : jget (resolve box id s.boxes).1 b with _ | m
        · rw [hq] at hrel
          exact hpos Rel.parents id b n hrel
        · rw [hq] at hrel
          exact opt_if_val_ne_zero hrel
      · rw [if_neg haid] at hrel
        rcases hq : jget (resolve box id s.boxes).2 a with _ | m
        · rw [hq] at hrel
          exact hpos Rel.parents a b n hrel
        · rw [hq] at hrel
          have hrel2 : (if b = id then (if m = 0 then none else some m)
              else relAt s Rel.parents a b) = some n := hrel
          by_cases hbid : b = id
          · rw [if_pos hbid] at hrel2
            exact opt_if_val_ne_zero hrel2
          · rw [if_neg hbid] at hrel2
            exact hpos Rel.parents a b n hrel2
  · intro f a b hrel
    rw [htrans b]
    cases f with
    | children =>
      rw [hch a b] at hrel
      by_cases haid : a = id
      · rw [if_pos haid] at hrel
        rcases hq : jget (resolve box id s.boxes).2 b with _ | m
        · rw [hq] at hrel
          exact hclosed Rel.children id b hrel
        · obtain ⟨cand, hmem, _, _, _⟩ :=
            resolve_children_mem (mem_of_jget_eq_some hq)
          rw [jget_of_mem (wfSt_boxes_nodup hwf) hmem]
          rfl
      · rw [if_neg haid] at hrel
        rcases hq : jget (resolve box id s.boxes).1 a with _ | m
        · rw [hq] at hrel
          exact hclosed Rel.children a b hrel
        · have hrel2 : (if b = id then (if m = 0 then none else some m)
              else relAt s Rel.children a b).isSome = true := by
            rw [hq] at hrel
            exact hrel
          by_cases hbid : b = id
          · rw [hbid, hb]
            rfl
          · rw [if_neg hbid] at hrel2
            exact hclosed Rel.children a b hrel2
    | parents =>
      rw [hpar a b] at hrel
      by_cases haid : a = id
      · rw [if_pos haid] at hrel
        rcases hq : jget (resolve box id s.boxes).1 b with _ | m
        · rw [hq] at hrel
          exact hclosed Rel.parents id b hrel
        · obtain ⟨cand, hmem, _, _, _⟩ :=
            resolve_parents_mem (mem_of_jget_eq_some hq)
          rw [jget_of_mem (wfSt_boxes_nodup hwf) hmem]
          rfl
      · rw [if_neg haid] at hrel
        rcases hq : jget (resolve box id s.boxes).2 a with _ | m
        · rw [hq] at hrel
          exact hclosed Rel.parents a b hrel
        · have hrel2 : (if b = id then (if m = 0 then none else some m)
              else relAt s Rel.parents a b).isSome = true := by
            rw [hq] at hrel
            exact hrel
          by_cases hbid : b = id
          · rw [hbid, hb]
            rfl
          · rw [if_neg hbid] at hrel2
            exact hclosed Rel.parents a b hrel2

/-- Witness for C1 on the two-box example registry. -/
theorem recalc_preserves_symmetry_witness :
    wfSt exSt = true ∧ symOK exSt = true ∧
    wfSt exSt2 = true ∧ symOK exSt2 = true := by
  have h := recalc_preserves_symmetry exSt ("fall") (by decide) (by decide)
    (exSt2, exEvs) (by decide)
  exact ⟨by decide, by decide, h.1, h.2⟩

/-! ## Combinator lemmas -/

section CombLemmas

variable {V : Type}

theorem keys_projState_sub {proj : String → Option V} {m : JMap String Int}
    {x : String} (h : x ∈ keys (projState proj m)) : x ∈ keys m := by
  induction m with
  | nil => simp [projState] at h
  | cons e rest ih =>
    simp only [projState] at h
    rcases hp : proj e.1 with _ | w
    · rw [hp] at h
      exact List.mem_cons_of_mem _ (ih h)
    · rw [hp] at h
      rcases List.mem_cons.mp (by simpa using h) with h1 | h1
      · simp [h1]
      · exact List.mem_cons_of_mem _ (ih h1)

theorem jget_projState {proj : String → Option V} {m : JMap String Int}
    (hnd : nodupB (keys m) = true) (rid : String) :
    jget (projState proj m) rid =
      (match jget m rid with
       | some _ => proj rid
       | none => none) := by
  induction m with
  | nil => simp [projState, jget]
  | cons e rest ih =>
    obtain ⟨a, c⟩ := e
    have hnd2 := nodupB_cons.mp (by simpa using hnd)
    by_cases he : rid = a
    · subst he
      have hnotm : rid ∉ keys (projState proj rest) := by
        intro hx
        exact hnd2.1 (keys_projState_sub hx)
      simp only [projState, jget, if_pos rfl]
      rcases hp : proj rid with _ | w
      · rw [jget_eq_none_of_not_mem hnotm]
        simp [hp]
      · simp [jget, hp]
    · simp only [projState, jget, if_neg he]
      rcases hp : proj a with _ | w
      · exact ih hnd2.2
      · simp only [jget, if_neg he]
        exact ih hnd2.2

theorem projState_append (proj : String → Option V) (m1 m2 : JMap String Int) :
    projState proj (m1 ++ m2) = projState proj m1 ++ projState proj m2 := by
  induction m1 with
  | nil => simp [projState]
  | cons e rest ih =>
    simp only [List.cons_append, projState]
    rcases hp : proj e.1 with _ | w <;> simp [ih]

theorem projState_jset_fresh {proj : String → Option V} {m : JMap String Int}
    {k : String} (v : Int) (h : k ∉ keys m) :
    projState proj (jset m k v) = projState proj m ++ projState proj [(k, v)] := by
  rw [jset_of_not_mem v h, projState_append]

theorem projState_jset_existing {proj : String → Option V} {m : JMap String Int}
    {k : String} (v : Int) (h : k ∈ keys m) :
    projState proj (jset m k v) = projState proj m := by
  induction m with
  | nil => simp at h
  | cons e rest ih =>
    by_cases he : k = e.1
    · simp only [jset, if_pos he, projState, he]
    · have h2 : k ∈ keys rest := by
        rcases List.mem_cons.mp (by simpa using h) with h1 | h1
        · exact absurd h1 he
        · exact h1
      simp only [jset, if_neg he, projState, ih h2]

theorem projState_jdel {proj : String → Option V} {m : JMap String Int}
    {k : String} (hnd : nodupB (keys m) = true) :
    projState proj (jdel m k) = jdel (projState proj m) k := by
  induction m with
  | nil => simp [projState, jdel]
  | cons e rest ih =>
    obtain ⟨a, c⟩ := e
    have hnd2 := nodupB_cons.mp (by simpa using hnd)
    by_cases he : k = a
    · subst he
      have hnotm : k ∉ keys (projState proj rest) := by
        intro hx
        exact hnd2.1 (keys_projState_sub hx)
      simp only [jdel, if_pos rfl, projState]
      rcases hp : proj k with _ | w
      · simp only [if_true]
        rw [jdel_of_not_mem hnotm]
      · simp [jdel, hp]
    · simp only [jdel, if_neg he, projState]
      rcases hp : proj a with _ | w
      · exact ih hnd2.2
      · simp only [jdel, if_neg he]
        rw [ih hnd2.2]

theorem relmapWF_nodup {m : JMap String Int} (h : relmapWF m = true) :
    nodupB (keys m) = true := by
  unfold relmapWF at h
  simp only [Bool.and_eq_true] at h
  exact h.1

theorem relmapWF_pos {m : JMap String Int} (h : relmapWF m = true) :
    ∀ e ∈ m, (0 : Int) < e.2 := by
  unfold relmapWF at h
  simp only [Bool.and_eq_true, List.all_eq_true, decide_eq_true_eq] at h
  exact h.2

theorem relmapWF_get_pos {m : JMap String Int} {k : String} {c : Int}
    (h : relmapWF m = true) (hv : jget m k = some c) : 0 < c :=
  relmapWF_pos h (k, c) (mem_of_jget_eq_some hv)

theorem mem_jset_sub {α β : Type} [DecidableEq α] {m : JMap α β} {k : α} {v : β}
    {e : α × β} (h : e ∈ jset m k v) : e ∈ m ∨ e = (k, v) := by
  induction m with
  | nil => simpa [jset] using h
  | cons e0 rest ih =>
    by_cases he : k = e0.1
    · simp only [jset, if_pos he] at h
      rcases List.mem_cons.mp h with h1 | h1
      · right
        rw [h1, he]
      · left
        exact List.mem_cons_of_mem _ h1
    · simp only [jset, if_neg he] at h
      rcases List.mem_cons.mp h with h1 | h1
      · left
        rw [h1]
        exact List.mem_cons_self _ _
      · rcases ih h1 with h2 | h2
        · left
          exact List.mem_cons_of_mem _ h2
        · right
          exact h2

theorem mem_jdel_sub {α β : Type} [DecidableEq α] {m : JMap α β} {k : α}
    {e : α × β} (h : e ∈ jdel m k) : e ∈ m := by
  induction m with
  | nil => simpa [jdel] using h
  | cons e0 rest ih =>
    by_cases he : k = e0.1
    · simp only [jdel, if_pos he] at h
      exact List.mem_cons_of_mem _ h
    · simp only [jdel, if_neg he] at h
      rcases List.mem_cons.mp h with h1 | h1
      · rw [h1]
        exact List.mem_cons_self _ _
      · exact List.mem_cons_of_mem _ (ih h1)

theorem relmapWF_jset {m : JMap String Int} {k : String} {n : Int}
    (h : relmapWF m = true) (hn : 0 < n) : relmapWF (jset m k n) = true := by
  unfold relmapWF
  simp only [Bool.and_eq_true, List.all_eq_true, decide_eq_true_eq]
  refine ⟨nodupB_keys_jset n (relmapWF_nodup h), ?_⟩
  intro e he
  rcases mem_jset_sub he with h1 | h1
  · exact relmapWF_pos h e h1
  · rw [h1]
    exact hn

theorem relmapWF_jdel {m : JMap String Int} {k : String}
    (h : relmapWF m = true) : relmapWF (jdel m k) = true := by
  unfold relmapWF
  simp only [Bool.and_eq_true, List.all_eq_true, decide_eq_true_eq]
  refine ⟨nodupB_keys_jdel k (relmapWF_nodup h), ?_⟩
  intro e he
  exact relmapWF_pos h e (mem_jdel_sub he)

end CombLemmas

theorem keys_jdel_lerase {β : Type} {m : JMap String β} {k : String} :
    keys (jdel m k) = lerase (keys m) k := by
  induction m with
  | nil => rfl
  | cons e rest ih =>
    by_cases he : k = e.1
    · simp [jdel, lerase, he, keys]
    · simp only [jdel, if_neg he, keys_cons, lerase]
      exact congrArg (List.cons e.1) ih

theorem listener_step_exit {V : Type} (hasProp hasHooks : Bool)
    (proj : String → Option V) (relmapAll : JMap String Int) (cs : CombState V)
    (rid : String) (count : Int) (hnone : jget relmapAll rid = none) :
    (relation_listener_step hasProp hasHooks proj relmapAll cs rid count).1 =
      ⟨jdel cs.state rid,
       if hasProp then lerase cs.tracked rid else cs.tracked⟩ := by
  simp only [relation_listener_step, hnone]
  cases hasProp <;> rfl

theorem listener_step_stay {V : Type} (hasProp hasHooks : Bool)
    (proj : String → Option V) (relmapAll : JMap String Int) (cs : CombState V)
    (rid : String) (count c : Int) (hsome : jget relmapAll rid = some c)
    (hne : ¬c = count) :
    relation_listener_step hasProp hasHooks proj relmapAll cs rid count =
      (cs, []) := by
  simp only [relation_listener_step, hsome, if_neg hne]

theorem listener_step_enter {V : Type} (hasProp hasHooks : Bool)
    (proj : String → Option V) (relmapAll : JMap String Int) (cs : CombState V)
    (rid : String) (count : Int) (hsome : jget relmapAll rid = some count) :
    (relation_listener_step hasProp hasHooks proj relmapAll cs rid count).1 =
      ⟨(match proj rid with
        | some v => jset cs.state rid v
        | none => jdel cs.state rid),
       if hasProp then
         (if rid ∈ cs.tracked then cs.tracked else cs.tracked ++ [rid])
       else cs.tracked⟩ := by
  simp only [relation_listener_step, hsome, if_pos rfl, on_add, property_callback]
  cases hasProp <;> rcases proj rid <;> rfl

theorem batch_deltas_congr {rm rm' : JMap String Int} {l : List (String × Int)}
    (h : ∀ e ∈ l, jget rm e.1 = jget rm' e.1) :
    batch_deltas rm l = batch_deltas rm' l := by
  unfold batch_deltas
  apply List.map_congr_left
  intro e he
  rw [h e he]

/-- The core preservation step: one well-formed propagator delivery keeps
the combinator's saved state equal to the projection of the current
relation map and its tracked set equal to the current relatives. -/
theorem comb_batch_invariant {V : Type} (hasProp hasHooks : Bool)
    (proj : String → Option V) (relmapAll : JMap String Int) :
    ∀ (l : List (String × Int)) (rm : JMap String Int) (cs : CombState V),
    relmapWF rm = true →
    nodupB (l.map Prod.fst) = true →
    (∀ e ∈ l, (0 : Int) ≤ e.2 ∧ e.2 ≠ (jget rm e.1).getD 0) →
    (∀ e ∈ l, jget relmapAll e.1 = (if e.2 = 0 then none else some e.2)) →
    cs.state = projState proj rm →
    cs.tracked = (if hasProp then keys rm else []) →
    ((relation_listener hasProp hasHooks proj relmapAll cs
        (batch_deltas rm l)).1.state = projState proj (apply_batch rm l) ∧
     (relation_listener hasProp hasHooks proj relmapAll cs
        (batch_deltas rm l)).1.tracked =
       (if hasProp then keys (apply_batch rm l) else []) ∧
     relmapWF (apply_batch rm l) = true) := by
  intro l
  induction l with
  | nil =>
    intro rm cs hwf _ _ _ hst htr
    refine ⟨?_, ?_, hwf⟩
    · simpa [batch_deltas, relation_listener, apply_batch] using hst
    · simpa [batch_deltas, relation_listener, apply_batch] using htr
  | cons e rest ih =>
    intro rm cs hwf hnd hvals hall hst htr
    obtain ⟨rid, n⟩ := e
    have hnd2 := nodupB_cons.mp (by simpa using hnd)
    have hv := hvals (rid, n) (List.mem_cons_self _ _)
    have hA := hall (rid, n) (List.mem_cons_self _ _)
    have hrest_ne : ∀ e ∈ rest, e.1 ≠ rid := by
      intro e he hh
      apply hnd2.1
      rw [← hh]
      exact List.mem_map_of_mem Prod.fst he
    have hdeltas : batch_deltas rm rest =
        batch_deltas (if n = 0 then jdel rm rid else jset rm rid n) rest := by
      apply batch_deltas_congr
      intro e he
      by_cases h0 : n = 0
      · rw [if_pos h0, jget_jdel_ne rm (hrest_ne e he)]
      · rw [if_neg h0, jget_jset_ne rm n (hrest_ne e he)]
    have hget_rest : ∀ e ∈ rest,
        jget (if n = 0 then jdel rm rid else jset rm rid n) e.1 = jget rm e.1 := by
      intro e he
      by_cases h0 : n = 0
      · rw [if_pos h0, jget_jdel_ne rm (hrest_ne e he)]
      · rw [if_neg h0, jget_jset_ne rm n (hrest_ne e he)]
    have hmain : (relation_listener hasProp hasHooks proj relmapAll cs
        (batch_deltas rm ((rid, n) :: rest))).1 =
        (relation_listener hasProp hasHooks proj relmapAll
          (relation_listener_step hasProp hasHooks proj relmapAll cs rid
            (n - (jget rm rid).getD 0)).1
          (batch_deltas rm rest)).1 := rfl
    have happ : apply_batch rm ((rid, n) :: rest) =
        apply_batch (if n = 0 then jdel rm rid else jset rm rid n) rest := rfl
    -- invariants after the head step
    have hstep : (relation_listener_step hasProp hasHooks proj relmapAll cs rid
          (n - (jget rm rid).getD 0)).1.state =
        projState proj (if n = 0 then jdel rm rid else jset rm rid n) ∧
        (relation_listener_step hasProp hasHooks proj relmapAll cs rid
          (n - (jget rm rid).getD 0)).1.tracked =
        (if hasProp then keys (if n = 0 then jdel rm rid else jset rm rid n)
         else []) := by
      by_cases h0 : n = 0
      · -- exit: the relative left the relation
        rw [if_pos h0] at hA
        rw [if_pos h0, listener_step_exit hasProp hasHooks proj relmapAll cs rid
          (n - (jget rm rid).getD 0) hA]
        constructor
        · rw [hst, projState_jdel (relmapWF_nodup hwf)]
        · by_cases hP : hasProp = true <;> simp [hP, htr, keys_jdel_lerase]
      · rw [if_neg h0] at hA
        rw [if_neg h0]
        by_cases holdz : (jget rm rid).getD 0 = 0
        · -- fresh enter: previous count zero
          have hnone : jget rm rid = none := by
            rcases hq : jget rm rid with _ | c
            · rfl
            · rw [hq] at holdz
              simp at holdz
              exact absurd (relmapWF_get_pos hwf hq) (by rw [holdz]; simp)
          have hnotkeys : rid ∉ keys rm := not_mem_of_jget_eq_none hnone
          have hnotstate : rid ∉ keys cs.state := by
            rw [hst]
            intro hx
            exact hnotkeys (keys_projState_sub hx)
          have hcount : n - (jget rm rid).getD 0 = n := by
            rw [hnone]
            simp
          have hA2 : jget relmapAll rid = some (n - (jget rm rid).getD 0) := by
            rw [hcount]
            exact hA
          rw [listener_step_enter hasProp hasHooks proj relmapAll cs rid
            (n - (jget rm rid).getD 0) hA2]
          constructor
          · rcases hp : proj rid with _ | v
            · rw [hst]
              simp only [hp]
              rw [jdel_of_not_mem (by rw [← hst]; exact hnotstate),
                projState_jset_fresh n hnotkeys]
              simp [projState, hp]
            · rw [hst]
              simp only [hp]
              rw [jset_of_not_mem v (by rw [← hst]; exact hnotstate),
                projState_jset_fresh n hnotkeys]
              simp [projState, hp]
          · by_cases hP : hasProp = true <;>
              simp [hP, htr, hnotkeys, keys_jset_of_not_mem n hnotkeys]
        · -- already present: the count changed but stayed positive
          have hmem : rid ∈ keys rm := by
            rcases hq : jget rm rid with _ | c
            · rw [hq] at holdz
              simp at holdz
            · exact mem_keys_of_jget_eq_some hq
          have hcount : ¬(n = n - (jget rm rid).getD 0) := by
            intro hh
            apply holdz
            omega
          rw [listener_step_stay hasProp hasHooks proj relmapAll cs rid
            (n - (jget rm rid).getD 0) n hA hcount]
          constructor
          · rw [hst, projState_jset_existing n hmem]
          · by_cases hP : hasProp = true <;>
              simp [hP, htr, keys_jset_of_mem n hmem]
    have hwf1 : relmapWF (if n = 0 then jdel rm rid else jset rm rid n) = true := by
      by_cases h0 : n = 0
      · rw [if_pos h0]
        exact relmapWF_jdel hwf
      · rw [if_neg h0]
        exact relmapWF_jset hwf (by rcases hv with ⟨hv1, _⟩; omega)
    rw [hmain, happ, hdeltas]
    exact ih (if n = 0 then jdel rm rid else jset rm rid n) _ hwf1
      (by simpa using hnd2.2)
      (fun e he => ⟨(hvals e (List.mem_cons_of_mem _ he)).1, by
        rw [hget_rest e he]
        exact (hvals e (List.mem_cons_of_mem _ he)).2⟩)
      (fun e he => hall e (List.mem_cons_of_mem _ he))
      hstep.1 hstep.2

theorem validBatch_props {rm : JMap String Int} {batch : List (String × Int)}
    (h : validBatch rm batch = true) :
    nodupB (batch.map Prod.fst) = true ∧
    ∀ e ∈ batch, (0 : Int) ≤ e.2 ∧ e.2 ≠ (jget rm e.1).getD 0 := by
  unfold validBatch at h
  simp only [Bool.and_eq_true, List.all_eq_true, decide_eq_true_eq] at h
  exact h

theorem validTrace_cons {rm : JMap String Int} {batch : List (String × Int)}
    {rest : List (List (String × Int))}
    (h : validTrace rm (batch :: rest) = true) :
    validBatch rm batch = true ∧ validTrace (apply_batch rm batch) rest = true := by
  unfold validTrace at h
  simpa [Bool.and_eq_true] using h

/-- What one `on_add` call does to the closure state. -/
theorem on_add_result {V : Type} (hasProp : Bool) (proj : String → Option V)
    (cs : CombState V) (rid : String) :
    (on_add hasProp proj cs rid).1 =
      ⟨(match proj rid with
        | some v => jset cs.state rid v
        | none => jdel cs.state rid),
       if hasProp then
         (if rid ∈ cs.tracked then cs.tracked else cs.tracked ++ [rid])
       else cs.tracked⟩ := by
  simp only [on_add, property_callback]
  cases hasProp <;> rcases proj rid <;> rfl

/-- The installation loop of `subscribe_relation` builds exactly the
projection of the relatives it walks, and tracks exactly their ids. -/
theorem install_loop_invariant {V : Type} (hasProp : Bool)
    (proj : String → Option V) :
    ∀ (l : List (String × Int)) (cs : CombState V) (m : JMap String Int),
    cs.state = projState proj m →
    cs.tracked = (if hasProp then keys m else []) →
    (∀ e ∈ l, e.1 ∉ keys m) →
    nodupB (l.map Prod.fst) = true →
    ((subscribe_relation_install hasProp proj l cs).1.state =
       projState proj (m ++ l) ∧
     (subscribe_relation_install hasProp proj l cs).1.tracked =
       (if hasProp then keys (m ++ l) else [])) := by
  intro l
  induction l with
  | nil =>
    intro cs m hst htr _ _
    simp only [subscribe_relation_install, List.append_nil]
    exact ⟨hst, htr⟩
  | cons e rest ih =>
    intro cs m hst htr hfresh hnd
    obtain ⟨rid, c⟩ := e
    have hnd2 := nodupB_cons.mp (by simpa using hnd)
    have hridm : rid ∉ keys m := hfresh (rid, c) (List.mem_cons_self _ _)
    have hnotst : rid ∉ keys cs.state := by
      rw [hst]
      intro hx
      exact hridm (keys_projState_sub hx)
    have hstep1 : (on_add hasProp proj cs rid).1.state =
        projState proj (m ++ [(rid, c)]) := by
      rw [on_add_result, projState_append]
      rcases hp : proj rid with _ | v
      · simp only [hp]
        rw [hst, jdel_of_not_mem (fun hx => hridm (keys_projState_sub hx))]
        simp [projState, hp]
      · simp only [hp]
        rw [hst, jset_of_not_mem v (fun hx => hridm (keys_projState_sub hx))]
        simp [projState, hp]
    have hkapp : keys (m ++ [(rid, c)]) = keys m ++ [rid] := by simp [keys]
    have hstep2 : (on_add hasProp proj cs rid).1.tracked =
        (if hasProp then keys (m ++ [(rid, c)]) else []) := by
      rw [on_add_result, hkapp]
      by_cases hP : hasProp = true <;> simp [hP, htr, hridm]
    have hmain : (subscribe_relation_install hasProp proj ((rid, c) :: rest) cs).1 =
        (subscribe_relation_install hasProp proj rest (on_add hasProp proj cs rid).1).1 :=
      rfl
    rw [hmain]
    have hfresh2 : ∀ e ∈ rest, e.1 ∉ keys (m ++ [(rid, c)]) := by
      intro e he hx
      have hk : keys (m ++ [(rid, c)]) = keys m ++ [rid] := by simp [keys]
      rw [hk] at hx
      rcases List.mem_append.mp hx with h1 | h1
      · exact hfresh e (List.mem_cons_of_mem _ he) h1
      · apply hnd2.1
        rw [← List.mem_singleton.mp h1]
        exact List.mem_map_of_mem Prod.fst he
    have hres := ih (on_add hasProp proj cs rid).1 (m ++ [(rid, c)]) hstep1 hstep2
      hfresh2 (by simpa using hnd2.2)
    simpa [List.append_assoc] using hres

/-- Every propagator delivery in a well-formed trace keeps the closure
state equal to the projection of the relation map it just wrote, and the
tracked set equal to its key set. -/
theorem comb_run_invariant {V : Type} (hasProp hasHooks : Bool)
    (proj : String → Option V) :
    ∀ (batches : List (List (String × Int))) (rm : JMap String Int)
      (cs : CombState V),
    relmapWF rm = true →
    validTrace rm batches = true →
    cs.state = projState proj rm →
    cs.tracked = (if hasProp then keys rm else []) →
    ((comb_run hasProp hasHooks proj rm cs batches).1.2.state =
       projState proj (comb_run hasProp hasHooks proj rm cs batches).1.1 ∧
     (comb_run hasProp hasHooks proj rm cs batches).1.2.tracked =
       (if hasProp then keys (comb_run hasProp hasHooks proj rm cs batches).1.1
        else []) ∧
     relmapWF (comb_run hasProp hasHooks proj rm cs batches).1.1 = true) := by
  intro batches
  induction batches with
  | nil =>
    intro rm cs hwf _ hst htr
    exact ⟨hst, htr, hwf⟩
  | cons batch rest ih =>
    intro rm cs hwf hvt hst htr
    obtain ⟨hvb, hvt2⟩ := validTrace_cons hvt
    obtain ⟨hnd, hvals⟩ := validBatch_props hvb
    have hall : ∀ e ∈ batch,
        jget (apply_batch rm batch) e.1 = (if e.2 = 0 then none else some e.2) := by
      intro e he
      obtain ⟨a, n⟩ := e
      exact apply_batch_jget_mem (relmapWF_nodup hwf) hnd he
    have hb := comb_batch_invariant hasProp hasHooks proj (apply_batch rm batch)
      batch rm cs hwf hnd hvals hall hst htr
    have hrw : (comb_run hasProp hasHooks proj rm cs (batch :: rest)).1 =
        (comb_run hasProp hasHooks proj (apply_batch rm batch)
          (relation_listener hasProp hasHooks proj (apply_batch rm batch) cs
            (batch_deltas rm batch)).1 rest).1 := rfl
    rw [hrw]
    exact ih (apply_batch rm batch) _ hb.2.2 hvt2 hb.1 hb.2.1

/-- C3: combinator consistency.  For every `subscribe_relation` instance
(any tracked-property flag, hooks flag and projection), after the
installation walk and any well-formed sequence of propagator delta
deliveries, the closure state map holds exactly the non-null projections
of the relatives currently present in the relation map — a from-scratch
recomputation — and the tracked-property subscriptions are exactly the
current relatives (none at all without a tracked property), so no
subscription survives an exit. -/
theorem subscribe_relation_consistency {V : Type} (hasProp hasHooks : Bool)
    (proj : String → Option V) (relmap0 : JMap String Int)
    (batches : List (List (String × Int)))
    (hwf : relmapWF relmap0 = true)
    (hvt : validTrace relmap0 batches = true) :
    (∀ rid,
      jget (comb_life hasProp hasHooks proj relmap0 batches).2.state rid =
        (match jget (comb_life hasProp hasHooks proj relmap0 batches).1 rid with
         | some _ => proj rid
         | none => none)) ∧
    (comb_life hasProp hasHooks proj relmap0 batches).2.tracked =
      (if hasProp then keys (comb_life hasProp hasHooks proj relmap0 batches).1
       else []) := by
  have hinst := install_loop_invariant hasProp proj relmap0
    (⟨[], []⟩ : CombState V) [] rfl (by cases hasProp <;> rfl)
    (by intro e _ hx; simp [keys] at hx) (relmapWF_nodup hwf)
  have hrun := comb_run_invariant hasProp hasHooks proj batches relmap0
    (subscribe_relation_install hasProp proj relmap0 ⟨[], []⟩).1 hwf hvt
    (by simpa using hinst.1) (by simpa using hinst.2)
  refine ⟨?_, ?_⟩
  · intro rid
    show jget (comb_run hasProp hasHooks proj relmap0
      (subscribe_relation_install hasProp proj relmap0 ⟨[], []⟩).1 batches).1.2.state
      rid = _
    rw [hrun.1]
    exact jget_projState (relmapWF_nodup hrun.2.2) rid
  · exact hrun.2.1

/-- Witness for C3: a tracked-property, hooked instance over an initially
empty relation, where `m` enters, exits again, and `x` enters with
projection 7; the final state holds exactly the entry for `x`. -/
theorem subscribe_relation_consistency_witness :
    relmapWF ([] : JMap String Int) = true ∧
    validTrace ([] : JMap String Int)
      [[(("m"), 1)], [(("m"), 0)], [(("x"), 2)]] = true ∧
    jget (comb_life true true
        (fun rid => if rid = ("x") then some (7 : Int) else none)
        [] [[(("m"), 1)], [(("m"), 0)], [(("x"), 2)]]).2.state ("x") =
      some 7 := by
  refine ⟨by decide, by decide, ?_⟩
  have h := subscribe_relation_consistency true true
    (fun rid => if rid = ("x") then some (7 : Int) else none) []
    [[(("m"), 1)], [(("m"), 0)], [(("x"), 2)]] (by decide) (by decide)
  rw [h.1 ("x")]
  rfl

theorem comb_run_single {V : Type} (hasProp hasHooks : Bool)
    (proj : String → Option V) (rm : JMap String Int) (cs : CombState V)
    (b : List (String × Int)) :
    comb_run hasProp hasHooks proj rm cs [b] =
      comb_step hasProp hasHooks proj rm cs b := by
  simp [comb_run]

theorem comb_run_append {V : Type} (hasProp hasHooks : Bool)
    (proj : String → Option V) :
    ∀ (l1 l2 : List (List (String × Int))) (rm : JMap String Int)
      (cs : CombState V),
    comb_run hasProp hasHooks proj rm cs (l1 ++ l2) =
      ((comb_run hasProp hasHooks proj
          (comb_run hasProp hasHooks proj rm cs l1).1.1
          (comb_run hasProp hasHooks proj rm cs l1).1.2 l2).1,
       (comb_run hasProp hasHooks proj rm cs l1).2 ++
       (comb_run hasProp hasHooks proj
          (comb_run hasProp hasHooks proj rm cs l1).1.1
          (comb_run hasProp hasHooks proj rm cs l1).1.2 l2).2) := by
  intro l1
  induction l1 with
  | nil =>
    intro l2 rm cs
    simp [comb_run]
  | cons b rest ih =>
    intro l2 rm cs
    simp [comb_run, ih, List.append_assoc]

/-- A delta delivered while the relative is present with a nonzero stored
count is ignored by the listener: no state change, no events. -/
theorem run_stay_events {V : Type} (hasProp hasHooks : Bool)
    (proj : String → Option V) (rid : String) :
    ∀ (pos : List Int) (rm : JMap String Int) (cs : CombState V) (m0 : Int),
    relmapWF rm = true →
    jget rm rid = some m0 →
    0 < m0 →
    (∀ c ∈ pos, 0 < c) →
    ((comb_run hasProp hasHooks proj rm cs
        (pos.map fun c => [(rid, c)])).2 = [] ∧
     jget (comb_run hasProp hasHooks proj rm cs
        (pos.map fun c => [(rid, c)])).1.1 rid = some (pos.getLastD m0) ∧
     0 < pos.getLastD m0 ∧
     relmapWF (comb_run hasProp hasHooks proj rm cs
        (pos.map fun c => [(rid, c)])).1.1 = true) := by
  intro pos
  induction pos with
  | nil =>
    intro rm cs m0 hwf hget hm0 _
    exact ⟨rfl, hget, hm0, hwf⟩
  | cons c rest ih =>
    intro rm cs m0 hwf hget hm0 hpos
    have hc : 0 < c := hpos c (List.mem_cons_self _ _)
    have hc0 : ¬(c = 0) := by omega
    have happ : apply_batch rm [(rid, c)] = jset rm rid c := by
      simp [apply_batch, hc0]
    have hget2 : jget (jset rm rid c) rid = some c := jget_jset_self rm rid c
    have hdelta : batch_deltas rm [(rid, c)] = [(rid, c - m0)] := by
      simp [batch_deltas, hget]
    have hstay : relation_listener hasProp hasHooks proj (jset rm rid c) cs
        [(rid, c - m0)] = (cs, []) := by
      simp [relation_listener,
        listener_step_stay hasProp hasHooks proj (jset rm rid c) cs rid
          (c - m0) c hget2 (by omega)]
    have hstep : comb_step hasProp hasHooks proj rm cs [(rid, c)] =
        ((jset rm rid c, cs), []) := by
      simp [comb_step, happ, hdelta, hstay]
    have hrun : comb_run hasProp hasHooks proj rm cs
        ((c :: rest).map fun x => [(rid, x)]) =
        comb_run hasProp hasHooks proj (jset rm rid c) cs
          (rest.map fun x => [(rid, x)]) := by
      simp [comb_run, hstep]
    rw [hrun, List.getLastD_cons]
    exact ih (jset rm rid c) cs c (relmapWF_jset hwf hc) hget2 hc
      (fun x hx => hpos x (List.mem_cons_of_mem _ hx))

/-- A delta arriving while the relative is absent is a fresh enter: the
enter hook fires (when provided), the tracked property is subscribed
(when configured), the exit hook stays silent. -/
theorem comb_step_enter_counts {V : Type} (hasProp hasHooks : Bool)
    (proj : String → Option V) (rm : JMap String Int) (cs : CombState V)
    (rid : String) (c : Int) (hnone : jget rm rid = none) (hc : ¬c = 0) :
    ((comb_step hasProp hasHooks proj rm cs [(rid, c)]).2.countP
        (isEnterEv rid) = (if hasHooks then 1 else 0) ∧
     (comb_step hasProp hasHooks proj rm cs [(rid, c)]).2.countP
        (isExitEv rid) = 0 ∧
     (comb_step hasProp hasHooks proj rm cs [(rid, c)]).2.countP
        (isSubscribeEv rid) = (if hasProp then 1 else 0)) ∧
    (comb_step hasProp hasHooks proj rm cs [(rid, c)]).1.1 = jset rm rid c := by
  have happ : apply_batch rm [(rid, c)] = jset rm rid c := by
    simp [apply_batch, hc]
  have hget2 : jget (jset rm rid c) rid = some c := jget_jset_self rm rid c
  have hdelta : batch_deltas rm [(rid, c)] = [(rid, c)] := by
    simp [batch_deltas, hnone]
  refine ⟨?_, by simp [comb_step, happ]⟩
  simp only [comb_step, happ, hdelta, relation_listener, relation_listener_step,
    hget2, if_pos rfl, on_add, property_callback]
  cases hasProp <;> cases hasHooks <;> rcases proj rid <;>
    simp [hnone, isEnterEv, isExitEv, isSubscribeEv, List.countP_cons,
      List.countP_nil]

/-- A zero delta while the relative is present is an exit: the exit hook
fires (when provided), nothing enters, nothing is resubscribed. -/
theorem comb_step_exit_counts {V : Type} (hasProp hasHooks : Bool)
    (proj : String → Option V) (rm : JMap String Int) (cs : CombState V)
    (rid : String) (hnd : nodupB (keys rm) = true) :
    (comb_step hasProp hasHooks proj rm cs [(rid, 0)]).2.countP
        (isEnterEv rid) = 0 ∧
    (comb_step hasProp hasHooks proj rm cs [(rid, 0)]).2.countP
        (isExitEv rid) = (if hasHooks then 1 else 0) ∧
    (comb_step hasProp hasHooks proj rm cs [(rid, 0)]).2.countP
        (isSubscribeEv rid) = 0 := by
  have happ : apply_batch rm [(rid, 0)] = jdel rm rid := by
    simp [apply_batch]
  have hget2 : jget (jdel rm rid) rid = none := jget_jdel_self rid hnd
  simp only [comb_step, happ, relation_listener, batch_deltas, List.map_cons,
    List.map_nil, relation_listener_step, hget2]
  cases hasProp <;> cases hasHooks <;>
    simp [isEnterEv, isExitEv, isSubscribeEv, List.countP_cons, List.countP_nil]

/-- C4: enter/exit pairing.  For every `subscribe_relation` instance and
every relative, over a delta sequence taking the stored count from absent
through any run of positive values and back to zero, the enter hook fires
exactly once (at the first positive count), the exit hook exactly once
(at the return to zero), and the tracked property is subscribed exactly
once; the intermediate positive counts produce no events at all (in
particular they neither fire hooks nor resubscribe). -/
theorem enter_exit_pairing {V : Type} (hasProp hasHooks : Bool)
    (proj : String → Option V) (rm : JMap String Int) (cs : CombState V)
    (rid : String) (c0 : Int) (pos : List Int)
    (hwf : relmapWF rm = true) (hnone : jget rm rid = none)
    (hc0 : 0 < c0) (hpos : ∀ c ∈ pos, 0 < c) :
    ((comb_run hasProp hasHooks proj rm cs
        (((c0 :: pos) ++ [0]).map fun c => [(rid, c)])).2.countP
        (isEnterEv rid) = (if hasHooks then 1 else 0)) ∧
    ((comb_run hasProp hasHooks proj rm cs
        (((c0 :: pos) ++ [0]).map fun c => [(rid, c)])).2.countP
        (isExitEv rid) = (if hasHooks then 1 else 0)) ∧
    ((comb_run hasProp hasHooks proj rm cs
        (((c0 :: pos) ++ [0]).map fun c => [(rid, c)])).2.countP
        (isSubscribeEv rid) = (if hasProp then 1 else 0)) := by
  have hmaps : (((c0 :: pos) ++ [0] : List Int).map fun c => [(rid, c)]) =
      [[(rid, c0)]] ++ ((pos.map fun c => [(rid, c)]) ++ [[(rid, 0)]]) := by
    simp
  rw [hmaps, comb_run_append]
  rw [comb_run_single]
  obtain ⟨hcnt0, hrm1⟩ := comb_step_enter_counts hasProp hasHooks proj rm cs
    rid c0 hnone (by omega)
  rw [hrm1]
  have hwf1 : relmapWF (jset rm rid c0) = true := relmapWF_jset hwf hc0
  have hget1 : jget (jset rm rid c0) rid = some c0 := jget_jset_self rm rid c0
  set cs1 := (comb_step hasProp hasHooks proj rm cs [(rid, c0)]).1.2 with hcs1
  obtain ⟨hmidev, hmidget, hmidpos, hmidwf⟩ := run_stay_events hasProp hasHooks
    proj rid pos (jset rm rid c0) cs1 c0 hwf1 hget1 hc0 hpos
  rw [comb_run_append, hmidev]
  obtain ⟨hx1, hx2, hx3⟩ := comb_step_exit_counts hasProp hasHooks proj
    (comb_run hasProp hasHooks proj (jset rm rid c0) cs1
      (pos.map fun c => [(rid, c)])).1.1
    (comb_run hasProp hasHooks proj (jset rm rid c0) cs1
      (pos.map fun c => [(rid, c)])).1.2
    rid (relmapWF_nodup hmidwf)
  rw [comb_run_single]
  simp [List.countP_append, hcnt0.1, hcnt0.2.1, hcnt0.2.2, hx1, hx2, hx3]

/-- Witness for C4: a hooked, tracked instance watching `m` through the
count cycle 0, 2, 3, 0. -/
theorem enter_exit_pairing_witness :
    relmapWF ([] : JMap String Int) = true ∧
    ((comb_run true true (fun _ => some (1 : Int)) []
        (⟨[], []⟩ : CombState Int)
        (((2 :: [3]) ++ [0]).map fun c => [(("m"), c)])).2.countP
        (isEnterEv ("m")) = 1 ∧
     (comb_run true true (fun _ => some (1 : Int)) []
        (⟨[], []⟩ : CombState Int)
        (((2 :: [3]) ++ [0]).map fun c => [(("m"), c)])).2.countP
        (isExitEv ("m")) = 1 ∧
     (comb_run true true (fun _ => some (1 : Int)) []
        (⟨[], []⟩ : CombState Int)
        (((2 :: [3]) ++ [0]).map fun c => [(("m"), c)])).2.countP
        (isSubscribeEv ("m")) = 1) := by
  refine ⟨by decide, ?_⟩
  have h := enter_exit_pairing true true (fun _ => some (1 : Int)) []
    (⟨[], []⟩ : CombState Int) ("m") 2 [3] (by decide) rfl (by decide) (by decide)
  simpa using h

theorem unit_max_check_inv (limit tu tu2 : Int) :
    unit_max_check limit tu2
      (if limit < tu then
        [(("units-max"), (">" ++ toString limit ++ " units"))] else []) =
      (if limit < tu2 then
        [(("units-max"), (">" ++ toString limit ++ " units"))] else []) := by
  unfold unit_max_check
  by_cases h1 : limit < tu <;> by_cases h2 : limit < tu2 <;>
    simp [h1, h2, jset, jdel]

/-- What one units-rule listener iteration does on an exit. -/
theorem units_step_exit (proj : String → Option Int) (limit : Int)
    (relmapAll : JMap String Int) (u : UnitsSt) (rid : String) (cnt : Int)
    (hnone : jget relmapAll rid = none) :
    units_step_one proj limit relmapAll u rid cnt =
      ⟨⟨jdel u.comb.state rid, lerase u.comb.tracked rid⟩,
       units_total (jdel u.comb.state rid),
       unit_max_check limit (units_total (jdel u.comb.state rid)) u.errors⟩ := by
  simp [units_step_one, relation_listener_step, hnone, isCallbackEv]

/-- What one units-rule listener iteration does on a fresh enter. -/
theorem units_step_enter (proj : String → Option Int) (limit : Int)
    (relmapAll : JMap String Int) (u : UnitsSt) (rid : String) (cnt : Int)
    (hsome : jget relmapAll rid = some cnt) :
    units_step_one proj limit relmapAll u rid cnt =
      ⟨⟨(match proj rid with
         | some v => jset u.comb.state rid v
         | none => jdel u.comb.state rid),
        if rid ∈ u.comb.tracked then u.comb.tracked
        else u.comb.tracked ++ [rid]⟩,
       units_total (match proj rid with
         | some v => jset u.comb.state rid v
         | none => jdel u.comb.state rid),
       unit_max_check limit
         (units_total (match proj rid with
           | some v => jset u.comb.state rid v
           | none => jdel u.comb.state rid)) u.errors⟩ := by
  simp only [units_step_one, relation_listener_step, hsome, if_pos rfl, on_add,
    property_callback]
  rcases proj rid <;> simp [isCallbackEv]

/-- A count change that stays positive is invisible to the units rule. -/
theorem units_step_stay (proj : String → Option Int) (limit : Int)
    (relmapAll : JMap String Int) (u : UnitsSt) (rid : String) (cnt c : Int)
    (hsome : jget relmapAll rid = some c) (hne : ¬c = cnt) :
    units_step_one proj limit relmapAll u rid cnt = u := by
  simp [units_step_one,
    listener_step_stay true false proj relmapAll u.comb rid cnt c hsome hne]

/-- One well-formed propagator delivery keeps the units rule consistent:
saved projections, tracked set, running total and the `units-max` error
all agree with the relation map just written. -/
theorem units_batch_invariant (proj : String → Option Int) (limit : Int)
    (relmapAll : JMap String Int) :
    ∀ (l : List (String × Int)) (rm : JMap String Int) (u : UnitsSt),
    relmapWF rm = true →
    nodupB (l.map Prod.fst) = true →
    (∀ e ∈ l, (0 : Int) ≤ e.2 ∧ e.2 ≠ (jget rm e.1).getD 0) →
    (∀ e ∈ l, jget relmapAll e.1 = (if e.2 = 0 then none else some e.2)) →
    u.comb.state = projState proj rm →
    u.comb.tracked = keys rm →
    u.totalUnits = units_total (projState proj rm) →
    u.errors = (if limit < u.totalUnits then
      [(("units-max"), (">" ++ toString limit ++ " units"))] else []) →
    ((units_batch proj limit relmapAll u (batch_deltas rm l)).comb.state =
       projState proj (apply_batch rm l) ∧
     (units_batch proj limit relmapAll u (batch_deltas rm l)).comb.tracked =
       keys (apply_batch rm l) ∧
     (units_batch proj limit relmapAll u (batch_deltas rm l)).totalUnits =
       units_total (projState proj (apply_batch rm l)) ∧
     (units_batch proj limit relmapAll u (batch_deltas rm l)).errors =
       (if limit <
          (units_batch proj limit relmapAll u (batch_deltas rm l)).totalUnits
        then [(("units-max"), (">" ++ toString limit ++ " units"))] else []) ∧
     relmapWF (apply_batch rm l) = true) := by
  intro l
  induction l with
  | nil =>
    intro rm u hwf _ _ _ hst htr htu herr
    exact ⟨hst, htr, htu, herr, hwf⟩
  | cons e rest ih =>
    intro rm u hwf hnd hvals hall hst htr htu herr
    obtain ⟨rid, n⟩ := e
    have hnd2 := nodupB_cons.mp (by simpa using hnd)
    have hv := hvals (rid, n) (List.mem_cons_self _ _)
    have hA := hall (rid, n) (List.mem_cons_self _ _)
    have hrest_ne : ∀ e ∈ rest, e.1 ≠ rid := by
      intro e he hh
      apply hnd2.1
      rw [← hh]
      exact List.mem_map_of_mem Prod.fst he
    have hdeltas : batch_deltas rm rest =
        batch_deltas (if n = 0 then jdel rm rid else jset rm rid n) rest := by
      apply batch_deltas_congr
      intro e he
      by_cases h0 : n = 0
      · rw [if_pos h0, jget_jdel_ne rm (hrest_ne e he)]
      · rw [if_neg h0, jget_jset_ne rm n (hrest_ne e he)]
    have hget_rest : ∀ e ∈ rest,
        jget (if n = 0 then jdel rm rid else jset rm rid n) e.1 = jget rm e.1 := by
      intro e he
      by_cases h0 : n = 0
      · rw [if_pos h0, jget_jdel_ne rm (hrest_ne e he)]
      · rw [if_neg h0, jget_jset_ne rm n (hrest_ne e he)]
    have hmain : units_batch proj limit relmapAll u
        (batch_deltas rm ((rid, n) :: rest)) =
        units_batch proj limit relmapAll
          (units_step_one proj limit relmapAll u rid (n - (jget rm rid).getD 0))
          (batch_deltas rm rest) := rfl
    have happ : apply_batch rm ((rid, n) :: rest) =
        apply_batch (if n = 0 then jdel rm rid else jset rm rid n) rest := rfl
    have hstep :
        (units_step_one proj limit relmapAll u rid
          (n - (jget rm rid).getD 0)).comb.state =
          projState proj (if n = 0 then jdel rm rid else jset rm rid n) ∧
        (units_step_one proj limit relmapAll u rid
          (n - (jget rm rid).getD 0)).comb.tracked =
          keys (if n = 0 then jdel rm rid else jset rm rid n) ∧
        (units_step_one proj limit relmapAll u rid
          (n - (jget rm rid).getD 0)).totalUnits =
          units_total (projState proj
            (if n = 0 then jdel rm rid else jset rm rid n)) ∧
        (units_step_one proj limit relmapAll u rid
          (n - (jget rm rid).getD 0)).errors =
          (if limit < (units_step_one proj limit relmapAll u rid
              (n - (jget rm rid).getD 0)).totalUnits
           then [(("units-max"), (">" ++ toString limit ++ " units"))]
           else []) := by
      by_cases h0 : n = 0
      · rw [if_pos h0] at hA
        rw [if_pos h0,
          units_step_exit proj limit relmapAll u rid (n - (jget rm rid).getD 0) hA]
        have hstate : jdel u.comb.state rid = projState proj (jdel rm rid) := by
          rw [hst, projState_jdel (relmapWF_nodup hwf)]
        refine ⟨hstate, ?_, by rw [hstate], ?_⟩
        · show lerase u.comb.tracked rid = _
          rw [htr, keys_jdel_lerase]
        · show unit_max_check limit (units_total (jdel u.comb.state rid))
            u.errors = _
          rw [herr, htu, unit_max_check_inv]
      · rw [if_neg h0] at hA
        rw [if_neg h0]
        by_cases holdz : (jget rm rid).getD 0 = 0
        · have hnone : jget rm rid = none := by
            rcases hq : jget rm rid with _ | c
            · rfl
            · rw [hq] at holdz
              simp at holdz
              exact absurd (relmapWF_get_pos hwf hq) (by rw [holdz]; simp)
          have hnotkeys : rid ∉ keys rm := not_mem_of_jget_eq_none hnone
          have hnotstate : rid ∉ keys u.comb.state := by
            rw [hst]
            intro hx
            exact hnotkeys (keys_projState_sub hx)
          have hcount : n - (jget rm rid).getD 0 = n := by
            rw [hnone]
            simp
          have hA2 : jget relmapAll rid = some (n - (jget rm rid).getD 0) := by
            rw [hcount]
            exact hA
          rw [units_step_enter proj limit relmapAll u rid
            (n - (jget rm rid).getD 0) hA2]
        
          have hstate : (match proj rid with
              | some v => jset u.comb.state rid v
              | none => jdel u.comb.state rid) =
              projState proj (jset rm rid n) := by
            rcases hp : proj rid with _ | v
            · simp only
              rw [hst, jdel_of_not_mem (by rw [← hst]; exact hnotstate),
                projState_jset_fresh n hnotkeys]
              simp [projState, hp]
            · simp only
              rw [hst, jset_of_not_mem v (by rw [← hst]; exact hnotstate),
                projState_jset_fresh n hnotkeys]
              simp [projState, hp]
          refine ⟨hstate, ?_, by rw [hstate], ?_⟩
          · show (if rid ∈ u.comb.tracked then u.comb.tracked
              else u.comb.tracked ++ [rid]) = _
            rw [htr, if_neg hnotkeys, keys_jset_of_not_mem n hnotkeys]
          · show unit_max_check limit (units_total (match proj rid with
              | some v => jset u.comb.state rid v
              | none => jdel u.comb.state rid)) u.errors = _
            rw [herr, htu, unit_max_check_inv]
        · have hmem : rid ∈ keys rm := by
            rcases hq : jget rm rid with _ | c
            · rw [hq] at holdz
              simp at holdz
            · exact mem_keys_of_jget_eq_some hq
          have hcount : ¬(n = n - (jget rm rid).getD 0) := by
            intro hh
            apply holdz
            omega
          rw [units_step_stay proj limit relmapAll u rid
            (n - (jget rm rid).getD 0) n hA hcount]
          refine ⟨?_, ?_, ?_, herr⟩
          · rw [hst, projState_jset_existing n hmem]
          · rw [htr, keys_jset_of_mem n hmem]
          · rw [htu, projState_jset_existing n hmem]
    have hwf1 : relmapWF (if n = 0 then jdel rm rid else jset rm rid n) = true := by
      by_cases h0 : n = 0
      · rw [if_pos h0]
        exact relmapWF_jdel hwf
      · rw [if_neg h0]
        exact relmapWF_jset hwf (by rcases hv with ⟨hv1, _⟩; omega)
    rw [hmain, happ, hdeltas]
    exact ih (if n = 0 then jdel rm rid else jset rm rid n) _ hwf1
      (by simpa using hnd2.2)
      (fun e he => ⟨(hvals e (List.mem_cons_of_mem _ he)).1, by
        rw [hget_rest e he]
        exact (hvals e (List.mem_cons_of_mem _ he)).2⟩)
      (fun e he => hall e (List.mem_cons_of_mem _ he))
      hstep.1 hstep.2.1 hstep.2.2.1 hstep.2.2.2

/-- Every delivery of a well-formed trace keeps the units rule
consistent. -/
theorem units_run_invariant (proj : String → Option Int) (limit : Int) :
    ∀ (batches : List (List (String × Int))) (rm : JMap String Int)
      (u : UnitsSt),
    relmapWF rm = true →
    validTrace rm batches = true →
    u.comb.state = projState proj rm →
    u.comb.tracked = keys rm →
    u.totalUnits = units_total (projState proj rm) →
    u.errors = (if limit < u.totalUnits then
      [(("units-max"), (">" ++ toString limit ++ " units"))] else []) →
    ((units_run proj limit rm u batches).2.comb.state =
       projState proj (units_run proj limit rm u batches).1 ∧
     (units_run proj limit rm u batches).2.comb.tracked =
       keys (units_run proj limit rm u batches).1 ∧
     (units_run proj limit rm u batches).2.totalUnits =
       units_total (projState proj (units_run proj limit rm u batches).1) ∧
     (units_run proj limit rm u batches).2.errors =
       (if limit < (units_run proj limit rm u batches).2.totalUnits then
         [(("units-max"), (">" ++ toString limit ++ " units"))] else []) ∧
     relmapWF (units_run proj limit rm u batches).1 = true) := by
  intro batches
  induction batches with
  | nil =>
    intro rm u hwf _ hst htr htu herr
    exact ⟨hst, htr, htu, herr, hwf⟩
  | cons batch rest ih =>
    intro rm u hwf hvt hst htr htu herr
    obtain ⟨hvb, hvt2⟩ := validTrace_cons hvt
    obtain ⟨hnd, hvals⟩ := validBatch_props hvb
    have hall : ∀ e ∈ batch,
        jget (apply_batch rm batch) e.1 = (if e.2 = 0 then none else some e.2) := by
      intro e he
      obtain ⟨a, n⟩ := e
      exact apply_batch_jget_mem (relmapWF_nodup hwf) hnd he
    have hb := units_batch_invariant proj limit (apply_batch rm batch)
      batch rm u hwf hnd hvals hall hst htr htu herr
    have hrw : units_run proj limit rm u (batch :: rest) =
        units_run proj limit (apply_batch rm batch)
          (units_batch proj limit (apply_batch rm batch) u
            (batch_deltas rm batch)) rest := rfl
    rw [hrw]
    exact ih (apply_batch rm batch) _ hb.2.2.2.2 hvt2 hb.1 hb.2.1 hb.2.2.1
      hb.2.2.2.1

/-- The installation loop of the units rule builds the projection, the
running total and the error entry for the children it walks. -/
theorem units_install_loop_invariant (proj : String → Option Int) (limit : Int) :
    ∀ (l : List (String × Int)) (u : UnitsSt) (m : JMap String Int),
    u.comb.state = projState proj m →
    u.comb.tracked = keys m →
    u.totalUnits = units_total (projState proj m) →
    u.errors = (if limit < u.totalUnits then
      [(("units-max"), (">" ++ toString limit ++ " units"))] else []) →
    (∀ e ∈ l, e.1 ∉ keys m) →
    nodupB (l.map Prod.fst) = true →
    ((units_install_loop proj limit l u).comb.state =
       projState proj (m ++ l) ∧
     (units_install_loop proj limit l u).comb.tracked = keys (m ++ l) ∧
     (units_install_loop proj limit l u).totalUnits =
       units_total (projState proj (m ++ l)) ∧
     (units_install_loop proj limit l u).errors =
       (if limit < (units_install_loop proj limit l u).totalUnits then
         [(("units-max"), (">" ++ toString limit ++ " units"))] else [])) := by
  intro l
  induction l with
  | nil =>
    intro u m hst htr htu herr _ _
    simpa using ⟨hst, htr, htu, herr⟩
  | cons e rest ih =>
    intro u m hst htr htu herr hfresh hnd
    obtain ⟨rid, c⟩ := e
    have hnd2 := nodupB_cons.mp (by simpa using hnd)
    have hridm : rid ∉ keys m := hfresh (rid, c) (List.mem_cons_self _ _)
    have hnotst : rid ∉ keys u.comb.state := by
      rw [hst]
      intro hx
      exact hridm (keys_projState_sub hx)
    have hstep1 : (on_add true proj u.comb rid).1.state =
        projState proj (m ++ [(rid, c)]) := by
      rw [on_add_result, projState_append]
      rcases hp : proj rid with _ | v
      · simp only [hp]
        rw [hst, jdel_of_not_mem (fun hx => hridm (keys_projState_sub hx))]
        simp [projState, hp]
      · simp only [hp]
        rw [hst, jset_of_not_mem v (fun hx => hridm (keys_projState_sub hx))]
        simp [projState, hp]
    have hkapp : keys (m ++ [(rid, c)]) = keys m ++ [rid] := by simp [keys]
    have hstep2 : (on_add true proj u.comb rid).1.tracked =
        keys (m ++ [(rid, c)]) := by
      rw [on_add_result, hkapp]
      simp [htr, hridm]
    have hmain : units_install_loop proj limit ((rid, c) :: rest) u =
        units_install_loop proj limit rest
          ⟨(on_add true proj u.comb rid).1,
           units_total (on_add true proj u.comb rid).1.state,
           unit_max_check limit
             (units_total (on_add true proj u.comb rid).1.state) u.errors⟩ :=
      rfl
    rw [hmain]
    have hfresh2 : ∀ e ∈ rest, e.1 ∉ keys (m ++ [(rid, c)]) := by
      intro e he hx
      rw [hkapp] at hx
      rcases List.mem_append.mp hx with h1 | h1
      · exact hfresh e (List.mem_cons_of_mem _ he) h1
      · apply hnd2.1
        rw [← List.mem_singleton.mp h1]
        exact List.mem_map_of_mem Prod.fst he
    have herr2 : unit_max_check limit
        (units_total (on_add true proj u.comb rid).1.state) u.errors =
        (if limit < units_total (projState proj (m ++ [(rid, c)])) then
          [(("units-max"), (">" ++ toString limit ++ " units"))] else []) := by
      rw [herr, htu, unit_max_check_inv, hstep1]
    have hres := ih ⟨(on_add true proj u.comb rid).1,
        units_total (on_add true proj u.comb rid).1.state,
        unit_max_check limit
          (units_total (on_add true proj u.comb rid).1.state) u.errors⟩
      (m ++ [(rid, c)]) hstep1 hstep2 (by rw [hstep1]) (by rw [herr2, hstep1])
      hfresh2 (by simpa using hnd2.2)
    simpa [List.append_assoc] using hres

/-- C7: total-units aggregation.  For every box with the units rule
installed (any limit and any `units` projection over the children), after
the installation walk and any well-formed sequence of children-relation
deliveries, the box's `total-units` equals the sum of the projected
`units` values over the children currently present that expose one, and
the `units-max` error is set exactly when that total exceeds the
limit — so in particular it is absent whenever the total stays within the
limit. -/
theorem units_aggregation (proj : String → Option Int) (limit : Int)
    (relmap0 : JMap String Int) (batches : List (List (String × Int)))
    (hlim : 0 ≤ limit) (hwf : relmapWF relmap0 = true)
    (hvt : validTrace relmap0 batches = true) :
    (units_life proj limit relmap0 batches).2.totalUnits =
      units_total (projState proj (units_life proj limit relmap0 batches).1) ∧
    jget (units_life proj limit relmap0 batches).2.errors ("units-max") =
      (if limit < (units_life proj limit relmap0 batches).2.totalUnits then
        some (">" ++ toString limit ++ " units") else none) := by
  unfold units_life
  have hinst := units_install_loop_invariant proj limit relmap0
    (⟨⟨[], []⟩, 0, []⟩ : UnitsSt) [] rfl rfl rfl
    (by rw [if_neg (by show ¬limit < 0; omega)])
    (by intro e _ hx; simp [keys] at hx)
    (by simpa [keys] using relmapWF_nodup hwf)
  have hrun := units_run_invariant proj limit batches relmap0
    (units_install proj limit relmap0) hwf hvt
    (by simpa using hinst.1) (by simpa using hinst.2.1)
    (by simpa using hinst.2.2.1) (by simpa using hinst.2.2.2)
  refine ⟨hrun.2.2.1, ?_⟩
  rw [hrun.2.2.2.1]
  by_cases hx : limit < (units_run proj limit relmap0
      (units_install proj limit relmap0) batches).2.totalUnits
  · show jget (if _ then _ else _) _ = _
    rw [if_pos hx, if_pos hx]
    simp [jget]
  · show jget (if _ then _ else _) _ = _
    rw [if_neg hx, if_neg hx]
    simp [jget]

/-- Witness for C7, the MATH 19 scenario: units projection 3 for the one
class, unit-max 22, the class enters the children relation; the quarter's
total becomes 3 and no `units-max` error is present. -/
theorem units_aggregation_witness :
    ((0 : Int) ≤ 22 ∧ relmapWF ([] : JMap String Int) = true ∧
     validTrace ([] : JMap String Int) [[(("MATH 19"), 1)]] = true) ∧
    (units_life (fun rid => if rid = ("MATH 19") then some (3 : Int) else none)
        22 [] [[(("MATH 19"), 1)]]).2.totalUnits = 3 ∧
    jget (units_life
        (fun rid => if rid = ("MATH 19") then some (3 : Int) else none)
        22 [] [[(("MATH 19"), 1)]]).2.errors ("units-max") = none := by
  refine ⟨⟨by decide, by decide, by decide⟩, ?_, ?_⟩
  all_goals
    have h := units_aggregation
      (fun rid => if rid = ("MATH 19") then some (3 : Int) else none)
      22 [] [[(("MATH 19"), 1)]] (by decide) (by decide) (by decide)
  · rw [h.1]
    decide
  · rw [h.2, h.1]
    decide

/-- Witness for C10 on a slot that `subscribe` created without a write. -/
theorem null_value_reads_as_unwritten_witness :
    (get_property (⟨[(("units"), ⟨none, [(("l"), ())]⟩)]⟩ : BoxStore Nat Unit)
      ("units") none).2 =
      JsResult.thrown ("Tried to access uninitialized property: units") ∧
    propValue (set_property
      (⟨[(("units"), ⟨none, [(("l"), ())]⟩)]⟩ : BoxStore Nat Unit)
      ("units") (fun _ => some 1) (fun w => w)).1 ("units") = some 1 := by
  have h := null_value_reads_as_unwritten
    (⟨[(("units"), ⟨none, [(("l"), ())]⟩)]⟩ : BoxStore Nat Unit)
    ("units") (by decide) ⟨none, [(("l"), ())]⟩ rfl rfl
  exact ⟨h.2.2.1, h.2.1 (fun _ => some 1) (fun w => w)⟩

end Boxes
